import Mathlib

/-!
# Verification of the clusterrouter delayed work queue and pod request arithmetic

Shallow embedding of `pkg/utils/queue` (the delayed, rate-limited, deduplicating
work queue found in `src/pkg/utils/log/log.go` after the logging facade) and of
the pod resource-request helpers (`src/unnamed/part_000`).

Modelling conventions:
* `time.Time` and `time.Duration` are nanosecond counts modelled as `Int`;
  the zero `time.Time` is `0` (so `t.IsZero()` becomes `t = 0`).
* The Go doubly linked list `q.items` is a `List QueueItem` (front first).
* The Go maps `itemsInQueue : map[string]*list.Element` and
  `itemsBeingProcessed : map[string]*queueItem` are an index list of keys and an
  association list; Go map semantics (unique keys) is an invariant (`WF`).
* The injected `clock.Clock` is a `clockNow : Int` parameter; the wall clock
  read by `time.Until` is a separate `wallNow : Int` parameter (the source mixes
  both, see `pickupNext` and `completeQueueItem`).
* The rate limiter is a state type `ρ` with `whenFn`/`forgetFn` transition
  functions, mirroring `workqueue.RateLimiter.When` / `.Forget`.
* Go `panic` is `Except.error`; locks, the wakeup channel and the dispatcher
  semaphore have no effect on the lock-protected state transitions modelled here.
* `QueueItem.seq` is a ghost field (not in the source): the value of a global
  counter at the moment `plannedToStartWorkAt` was last assigned.  It does not
  influence any operation; it only lets us state tie-ordering properties.
-/

abbrev Key := String

abbrev Time := Int

abbrev Duration := Int

/-- Association-list lookup, modelling Go map indexing `m[k]`. -/
def alookup {α : Type} (k : String) : List (String × α) → Option α
  | [] => none
  | p :: rest => if p.1 = k then some p.2 else alookup k rest

/-- Update the value stored under a (present) key, modelling mutation of the
pointed-to value / `m[k] = v` when `k` is already present. -/
def setValue {α : Type} (k : String) (v : α) : List (String × α) → List (String × α)
  | [] => []
  | p :: rest => if p.1 = k then (p.1, v) :: setValue k v rest else p :: setValue k v rest

/-- Association-list deletion, modelling Go `delete(m, k)`. -/
def deleteKey {α : Type} (k : String) : List (String × α) → List (String × α)
  | [] => []
  | p :: rest => if p.1 = k then deleteKey k rest else p :: deleteKey k rest

/-- Go `queueItem` (src/pkg/utils/log/log.go:112-124), with the ghost `seq`. -/
structure QueueItem where
  key : Key
  plannedToStartWorkAt : Time
  redirtiedAt : Time
  redirtiedWithRatelimit : Bool
  forget : Bool
  requeues : Nat
  originallyAdded : Time
  addedViaRedirty : Bool
  delayedViaRateLimit : Option Duration
  seq : Nat
deriving DecidableEq, Repr

/-- `workqueue.RateLimiter`, as a pair of transition functions over an abstract
limiter state `ρ`: `When(key)` returns a delay and the successor state,
`Forget(key)` returns the successor state. -/
structure RateLimiter (ρ : Type) where
  whenFn : ρ → Key → Duration × ρ
  forgetFn : ρ → Key → ρ

/-- The lock-protected state of Go `Queue` (src/pkg/utils/log/log.go:88-110). -/
structure QueueState (ρ : Type) where
  rl : ρ
  running : Bool
  items : List QueueItem
  itemsInQueue : List Key
  itemsBeingProcessed : List (Key × QueueItem)
  seqCounter : Nat
deriving DecidableEq, Repr

/-- MaxRetries (src/pkg/utils/log/log.go:81). -/
def MaxRetries : Nat := 20

/-- The tail-to-head scan of `insert` (src/pkg/utils/log/log.go:258-264):
splits `l` into `(a, b)` with `l = a ++ b`, where `b` is the maximal suffix all
of whose elements have `plannedToStartWorkAt ≥ w`; the new item is placed
between `a` and `b` (after the last element strictly earlier than `w`). -/
def splitForInsert (w : Time) : List QueueItem → List QueueItem × List QueueItem
  | [] => ([], [])
  | x :: xs =>
    let p := splitForInsert w xs
    if p.1.isEmpty ∧ ¬ x.plannedToStartWorkAt < w then ([], x :: p.2)
    else (x :: p.1, p.2)

/-- Locate the pending item stored under a key: `itemsInQueue[key]` dereferenced
into the list, as the decomposition `items = pre ++ item :: post` at the first
(under `WF`: unique) element with that key. -/
def splitAtKey (k : Key) : List QueueItem → Option (List QueueItem × QueueItem × List QueueItem)
  | [] => none
  | x :: xs =>
    if x.key = k then some ([], x, xs)
    else match splitAtKey k xs with
      | some (pre, qi, post) => some (x :: pre, qi, post)
      | none => none

/-- Result value returned by a pending-list element, used when a dangling index
entry (impossible under `WF`) leaves no item to return. -/
def deadItem (k : Key) : QueueItem :=
  { key := k, plannedToStartWorkAt := 0, redirtiedAt := 0, redirtiedWithRatelimit := false,
    forget := false, requeues := 0, originallyAdded := 0, addedViaRedirty := false,
    delayedViaRateLimit := none, seq := 0 }

/-- Which branch of `insert` fired (in Go this is visible as the pointer
identity of the returned `*queueItem` and the trace span status). -/
inductive InsertOutcome
  | mergedInFlight
  | adjustedPending
  | addedNew
deriving DecidableEq, Repr

/-- Go `Queue.adjustPosition` (src/pkg/utils/log/log.go:270-287), acting on the
decomposition `items = pre ++ qi :: post` of the list at the element for the
key.  Returns the new list, the (possibly updated) item, and the new ghost
counter.  `when.After(planned)` is the strict test `planned < w`. -/
def adjustPosition (c : Nat) (w : Time) (pre : List QueueItem) (qi : QueueItem)
    (post : List QueueItem) : List QueueItem × QueueItem × Nat :=
  if qi.plannedToStartWorkAt < w then (pre ++ qi :: post, qi, c)
  else
    let qi' := { qi with plannedToStartWorkAt := w, seq := c }
    let p := splitForInsert w pre
    (p.1 ++ qi' :: (p.2 ++ post), qi', c + 1)

/-- Go `Queue.insert` (src/pkg/utils/log/log.go:193-268).  `clockNow` is the
injected clock's `q.clock.Now()`.  Panic (line 248) is `Except.error`.  The
non-blocking wakeup-channel send has no effect on this state.  The
`none` fallback in the pending branch corresponds to a dangling
`itemsInQueue` entry, impossible when the index and list agree (`WF`): Go would
mutate an element no longer on the list, leaving the list itself unchanged. -/
def Queue.insert {ρ : Type} (lim : RateLimiter ρ) (clockNow : Time) (s : QueueState ρ)
    (key : Key) (ratelimit : Bool) (delay : Duration) :
    Except String (QueueState ρ × QueueItem × InsertOutcome) :=
  match alookup key s.itemsBeingProcessed with
  | some item =>
    let w := clockNow + delay
    let item1 :=
      if item.redirtiedAt = 0 then
        { item with redirtiedAt := w, redirtiedWithRatelimit := ratelimit }
      else if w < item.redirtiedAt then
        { item with redirtiedAt := w, redirtiedWithRatelimit := ratelimit }
      else item
    let item2 := { item1 with forget := false }
    .ok ({ s with itemsBeingProcessed := setValue key item2 s.itemsBeingProcessed },
          item2, .mergedInFlight)
  | none =>
    if key ∈ s.itemsInQueue then
      match splitAtKey key s.items with
      | some (pre, qi, post) =>
        let w := clockNow + delay
        let r := adjustPosition s.seqCounter w pre qi post
        .ok ({ s with items := r.1, seqCounter := r.2.2 }, r.2.1, .adjustedPending)
      | none => .ok (s, deadItem key, .adjustedPending)
    else
      let val0 : QueueItem :=
        { key := key, plannedToStartWorkAt := clockNow, redirtiedAt := 0,
          redirtiedWithRatelimit := false, forget := false, requeues := 0,
          originallyAdded := clockNow, addedViaRedirty := false,
          delayedViaRateLimit := none, seq := s.seqCounter }
      if ratelimit then
        if delay > 0 then .error "Non-zero delay with rate limiting not supported"
        else
          let wr := lim.whenFn s.rl key
          let val := { val0 with plannedToStartWorkAt := clockNow + wr.1,
                                 delayedViaRateLimit := some wr.1 }
          let p := splitForInsert val.plannedToStartWorkAt s.items
          .ok ({ s with rl := wr.2, items := p.1 ++ val :: p.2,
                        itemsInQueue := key :: s.itemsInQueue,
                        seqCounter := s.seqCounter + 1 }, val, .addedNew)
      else
        let val := { val0 with plannedToStartWorkAt := clockNow + delay }
        let p := splitForInsert val.plannedToStartWorkAt s.items
        .ok ({ s with items := p.1 ++ val :: p.2,
                      itemsInQueue := key :: s.itemsInQueue,
                      seqCounter := s.seqCounter + 1 }, val, .addedNew)

/-- Go `Queue.Enqueue` (src/pkg/utils/log/log.go:149-154). -/
def Enqueue {ρ : Type} (lim : RateLimiter ρ) (clockNow : Time) (s : QueueState ρ)
    (key : Key) : Except String (QueueState ρ × QueueItem × InsertOutcome) :=
  Queue.insert lim clockNow s key true 0

/-- Go `Queue.EnqueueWithoutRateLimit` (src/pkg/utils/log/log.go:157-162). -/
def EnqueueWithoutRateLimit {ρ : Type} (lim : RateLimiter ρ) (clockNow : Time)
    (s : QueueState ρ) (key : Key) :
    Except String (QueueState ρ × QueueItem × InsertOutcome) :=
  Queue.insert lim clockNow s key false 0

/-- Go `Queue.EnqueueWithoutRateLimitWithDelay` (src/pkg/utils/log/log.go:290-294). -/
def EnqueueWithoutRateLimitWithDelay {ρ : Type} (lim : RateLimiter ρ) (clockNow : Time)
    (s : QueueState ρ) (key : Key) (after : Duration) :
    Except String (QueueState ρ × QueueItem × InsertOutcome) :=
  Queue.insert lim clockNow s key false after

/-- Remove a key from the index list (Go `delete(q.itemsInQueue, key)`;
under `WF` the key occurs at most once). -/
def eraseKey (k : Key) : List Key → List Key
  | [] => []
  | x :: xs => if x = k then xs else x :: eraseKey k xs

/-- Remove the pending item stored under a key (Go `q.items.Remove(item)` on
the element found through `itemsInQueue`; under `WF` there is exactly one). -/
def erasePendingItem (k : Key) : List QueueItem → List QueueItem
  | [] => []
  | it :: rest => if it.key = k then rest else it :: erasePendingItem k rest

/-- Go `Queue.Forget` (src/pkg/utils/log/log.go:165-189): a pending key is
removed from list and index; an in-flight key has its `forget` flag set; an
absent key is a no-op.  The rate limiter is never touched. -/
def Forget {ρ : Type} (s : QueueState ρ) (key : Key) : QueueState ρ :=
  if key ∈ s.itemsInQueue then
    { s with itemsInQueue := eraseKey key s.itemsInQueue,
             items := erasePendingItem key s.items }
  else
    match alookup key s.itemsBeingProcessed with
    | some qi =>
      { s with itemsBeingProcessed :=
          setValue key { qi with forget := true } s.itemsBeingProcessed }
    | none => s

/-- Go map assignment `m[k] = v`: overwrite if present, otherwise add. -/
def setOrAdd {α : Type} (k : String) (v : α) (l : List (String × α)) : List (String × α) :=
  if (alookup k l).isSome then setValue k v l else (k, v) :: l

/-- The pickup step of `Queue.getNextItem` (src/pkg/utils/log/log.go:376-387):
if the front item is due — `timeUntilProcessing := time.Until(planned)` reads
the WALL clock, not the injected `q.clock` — it moves from the pending list and
index into `itemsBeingProcessed` and is handed to the worker.  Returns `none`
when the queue is empty or the head is not yet due (the code then sleeps). -/
def pickupNext {ρ : Type} (wallNow : Time) (s : QueueState ρ) :
    Option (QueueState ρ × QueueItem) :=
  match s.items with
  | [] => none
  | qi :: rest =>
    if qi.plannedToStartWorkAt - wallNow ≤ 0 then
      let s' := { s with itemsBeingProcessed := setOrAdd qi.key qi s.itemsBeingProcessed,
                         items := rest,
                         itemsInQueue := eraseKey qi.key s.itemsInQueue }
      some (s', qi)
    else none

/-- Apply a field update to the map value stored under a key. -/
def updateValue (k : Key) (f : QueueItem → QueueItem) :
    List (Key × QueueItem) → List (Key × QueueItem)
  | [] => []
  | p :: rest =>
    (if p.1 = k then (p.1, f p.2) else p) :: updateValue k f rest

/-- Apply a field update to the pending item(s) carrying a key (under `WF`
there is at most one, matching Go's mutation of the single pointer). -/
def updatePendingItems (k : Key) (f : QueueItem → QueueItem) :
    List QueueItem → List QueueItem
  | [] => []
  | it :: rest => (if it.key = k then f it else it) :: updatePendingItems k f rest

/-- Apply a field update to the item returned by `insert`, at the location the
outcome names (Go mutates the returned pointer: the map value for a merged
in-flight item, the list element otherwise). -/
def updateLoc {ρ : Type} (oc : InsertOutcome) (k : Key) (f : QueueItem → QueueItem)
    (s : QueueState ρ) : QueueState ρ :=
  match oc with
  | .mergedInFlight =>
    { s with itemsBeingProcessed := updateValue k f s.itemsBeingProcessed }
  | _ => { s with items := updatePendingItems k f s.items }

/-- The completion logic of `Queue.handleQueueItemObject` after the handler
returned (src/pkg/utils/log/log.go:461-492).  `handlerErr` is whether the
handler returned a non-nil error; the returned `Bool` is whether the function
itself returns a non-nil error to `handleQueueItem`.  Note the re-dirty
re-insert uses `delay = time.Until(qi.redirtiedAt)` — the WALL clock, and not
clamped to zero — while `insert` itself uses the injected clock. -/
def completeQueueItem {ρ : Type} (lim : RateLimiter ρ) (clockNow wallNow : Time)
    (handlerErr : Bool) (qi : QueueItem) (s : QueueState ρ) :
    Except String (QueueState ρ × Bool) :=
  let s1 := { s with itemsBeingProcessed := deleteKey qi.key s.itemsBeingProcessed }
  if qi.forget then
    .ok ({ s1 with rl := lim.forgetFn s1.rl qi.key }, false)
  else if handlerErr = true ∧ qi.requeues + 1 < MaxRetries then
    match Queue.insert lim clockNow s1 qi.key true 0 with
    | .error e => .error e
    | .ok (s2, _, oc) =>
      .ok (updateLoc oc qi.key
            (fun it => { it with requeues := qi.requeues + 1,
                                 originallyAdded := qi.originallyAdded }) s2, false)
  else
    let s2 := { s1 with rl := lim.forgetFn s1.rl qi.key }
    if qi.redirtiedAt = 0 then .ok (s2, handlerErr)
    else
      match Queue.insert lim clockNow s2 qi.key qi.redirtiedWithRatelimit
              (qi.redirtiedAt - wallNow) with
      | .error e => .error e
      | .ok (s3, _, oc) =>
        .ok (updateLoc oc qi.key (fun it => { it with addedViaRedirty := true }) s3,
             handlerErr)

/-- Go `Queue.Len` (src/pkg/utils/log/log.go:304-312); the panic on an
inconsistent index is `Except.error`. -/
def Len {ρ : Type} (s : QueueState ρ) : Except String Nat :=
  if s.items.length ≠ s.itemsInQueue.length then .error "Internally inconsistent state"
  else .ok (s.items.length + s.itemsBeingProcessed.length)

/-- The argument-validation and state transition at the start of `Queue.Run`
(src/pkg/utils/log/log.go:317-327); both panics are `Except.error`. -/
def RunStart {ρ : Type} (workers : Int) (s : QueueState ρ) :
    Except String (QueueState ρ) :=
  if workers ≤ 0 then .error "Workers must be greater than 0"
  else if s.running then .error "Queue is already running"
  else .ok { s with running := true }

/-- Does the modelled operation panic? -/
def isPanic {α : Type} : Except String α → Bool
  | .error _ => true
  | .ok _ => false

instance exceptDecidableEq {ε α : Type} [DecidableEq ε] [DecidableEq α] :
    DecidableEq (Except ε α) := fun a b =>
  match a, b with
  | .error e, .error e' =>
    if h : e = e' then .isTrue (by rw [h]) else .isFalse (by intro hh; cases hh; exact h rfl)
  | .error _, .ok _ => .isFalse (by intro hh; cases hh)
  | .ok _, .error _ => .isFalse (by intro hh; cases hh)
  | .ok v, .ok v' =>
    if h : v = v' then .isTrue (by rw [h]) else .isFalse (by intro hh; cases hh; exact h rfl)

/-- Number of pending items carrying a given key. -/
def countKey (k : Key) : List QueueItem → Nat
  | [] => 0
  | it :: rest => (if it.key = k then 1 else 0) + countKey k rest

/-- The scheduling order of the pending list: non-decreasing
`plannedToStartWorkAt`, and among equal planned times the more recently
scheduled item (larger ghost `seq`) comes first. -/
def itemLe (x y : QueueItem) : Prop :=
  x.plannedToStartWorkAt < y.plannedToStartWorkAt ∨
    (x.plannedToStartWorkAt = y.plannedToStartWorkAt ∧ y.seq < x.seq)

instance itemLe.decidable : DecidableRel itemLe := fun x y => by
  unfold itemLe; exact inferInstance

theorem itemLe.le {x y : QueueItem} (h : itemLe x y) :
    x.plannedToStartWorkAt ≤ y.plannedToStartWorkAt := by
  rcases h with h | ⟨h, -⟩
  · exact le_of_lt h
  · exact le_of_eq h

/-- Well-formedness of a queue state: exactly the facts that hold of the Go
structure outside any critical section — Go-map key uniqueness, the index
matching the pending list (spec invariants 1 and 4), pending/in-flight
disjointness (invariant 2), and the pending list sorted by `itemLe`
(invariant 3 plus the tie order established below). -/
structure WF {ρ : Type} (s : QueueState ρ) : Prop where
  index_nodup : s.itemsInQueue.Nodup
  proc_nodup : (s.itemsBeingProcessed.map Prod.fst).Nodup
  count_index : ∀ k, countKey k s.items = if k ∈ s.itemsInQueue then 1 else 0
  disjoint : ∀ k ∈ s.itemsInQueue, alookup k s.itemsBeingProcessed = none
  sorted : s.items.Pairwise itemLe
  seq_lt : ∀ it ∈ s.items, it.seq < s.seqCounter

theorem countKey_append (k : Key) (l₁ l₂ : List QueueItem) :
    countKey k (l₁ ++ l₂) = countKey k l₁ + countKey k l₂ := by
  induction l₁ with
  | nil => simp [countKey]
  | cons x xs ih => simp [countKey, ih]; omega

theorem countKey_eq_zero {k : Key} {l : List QueueItem} :
    countKey k l = 0 ↔ ∀ it ∈ l, it.key ≠ k := by
  induction l with
  | nil => simp [countKey]
  | cons x xs ih =>
    by_cases hx : x.key = k <;> simp [countKey, hx, ih]

theorem alookup_eq_none {α : Type} {k : String} {l : List (String × α)} :
    alookup k l = none ↔ ∀ p ∈ l, p.1 ≠ k := by
  induction l with
  | nil => simp [alookup]
  | cons p rest ih =>
    by_cases hp : p.1 = k <;> simp [alookup, hp, ih]

theorem alookup_deleteKey_self {α : Type} (k : String) (l : List (String × α)) :
    alookup k (deleteKey k l) = none := by
  induction l with
  | nil => simp [deleteKey, alookup]
  | cons p rest ih =>
    by_cases hp : p.1 = k <;> simp [deleteKey, hp, alookup, ih]

theorem alookup_deleteKey_ne {α : Type} {k k' : String} (h : k' ≠ k)
    (l : List (String × α)) : alookup k' (deleteKey k l) = alookup k' l := by
  induction l with
  | nil => simp [deleteKey]
  | cons p rest ih =>
    by_cases hp : p.1 = k <;> by_cases hp' : p.1 = k' <;>
      simp_all [deleteKey, alookup]

theorem deleteKey_sublist {α : Type} (k : String) (l : List (String × α)) :
    List.Sublist (deleteKey k l) l := by
  induction l with
  | nil => simp [deleteKey]
  | cons p rest ih =>
    by_cases hp : p.1 = k
    · simpa [deleteKey, hp] using ih.cons p
    · simpa [deleteKey, hp] using ih.cons₂ p

theorem map_fst_setValue {α : Type} (k : String) (v : α) (l : List (String × α)) :
    (setValue k v l).map Prod.fst = l.map Prod.fst := by
  induction l with
  | nil => simp [setValue]
  | cons p rest ih =>
    by_cases hp : p.1 = k <;> simp_all [setValue]

theorem alookup_setValue_self {α : Type} (k : String) (v : α) (l : List (String × α)) :
    alookup k (setValue k v l) = (alookup k l).map (fun _ => v) := by
  induction l with
  | nil => simp [setValue, alookup]
  | cons p rest ih =>
    by_cases hp : p.1 = k <;> simp [setValue, hp, alookup, ih]

theorem alookup_setValue_ne {α : Type} {k k' : String} (h : k' ≠ k) (v : α)
    (l : List (String × α)) : alookup k' (setValue k v l) = alookup k' l := by
  induction l with
  | nil => simp [setValue]
  | cons p rest ih =>
    by_cases hp : p.1 = k <;> by_cases hp' : p.1 = k' <;>
      simp_all [setValue, alookup]

theorem setOrAdd_of_none {α : Type} {k : String} {l : List (String × α)}
    (h : alookup k l = none) (v : α) : setOrAdd k v l = (k, v) :: l := by
  simp [setOrAdd, h]

theorem eraseKey_sublist (k : Key) (l : List Key) : List.Sublist (eraseKey k l) l := by
  induction l with
  | nil => simp [eraseKey]
  | cons x xs ih =>
    by_cases hx : x = k
    · simpa [eraseKey, hx] using (List.sublist_cons_self x xs)
    · simpa [eraseKey, hx] using ih.cons₂ x

theorem mem_eraseKey {k k' : Key} {l : List Key} (hn : l.Nodup) :
    k' ∈ eraseKey k l ↔ k' ∈ l ∧ k' ≠ k := by
  induction l with
  | nil => simp [eraseKey]
  | cons x xs ih =>
    rcases List.nodup_cons.mp hn with ⟨hx, hxs⟩
    by_cases hxk : x = k
    · subst hxk
      simp only [eraseKey, if_pos rfl, List.mem_cons]
      constructor
      · intro h
        refine ⟨Or.inr h, ?_⟩
        rintro rfl; exact hx h
      · rintro ⟨h | h, hne⟩
        · exact absurd h hne
        · exact h
    · simp only [eraseKey, if_neg hxk, List.mem_cons, ih hxs]
      constructor
      · rintro (rfl | ⟨h, hne⟩)
        · exact ⟨Or.inl rfl, fun hh => hxk hh⟩
        · exact ⟨Or.inr h, hne⟩
      · rintro ⟨rfl | h, hne⟩
        · exact Or.inl rfl
        · exact Or.inr ⟨h, hne⟩

theorem eraseKey_of_not_mem {k : Key} {l : List Key} (h : k ∉ l) :
    eraseKey k l = l := by
  induction l with
  | nil => rfl
  | cons x xs ih =>
    simp only [List.mem_cons, not_or] at h
    have hx : x ≠ k := fun hh => h.1 hh.symm
    simp [eraseKey, hx, ih h.2]

theorem erasePendingItem_sublist (k : Key) (l : List QueueItem) :
    List.Sublist (erasePendingItem k l) l := by
  induction l with
  | nil => simp [erasePendingItem]
  | cons it rest ih =>
    by_cases h : it.key = k
    · simpa [erasePendingItem, h] using List.sublist_cons_self it rest
    · simpa [erasePendingItem, h] using ih.cons₂ it

theorem countKey_erasePendingItem_self (k : Key) (l : List QueueItem) :
    countKey k (erasePendingItem k l) = countKey k l - 1 := by
  induction l with
  | nil => simp [erasePendingItem, countKey]
  | cons it rest ih =>
    by_cases h : it.key = k
    · simp [erasePendingItem, h, countKey]
    · simp [erasePendingItem, h, countKey, ih]

theorem countKey_erasePendingItem_ne {k k' : Key} (h : k' ≠ k) (l : List QueueItem) :
    countKey k' (erasePendingItem k l) = countKey k' l := by
  induction l with
  | nil => simp [erasePendingItem]
  | cons it rest ih =>
    by_cases hk : it.key = k
    · have : it.key ≠ k' := by rw [hk]; exact fun hh => h hh.symm
      simp [erasePendingItem, hk, countKey, this, Ne.symm h]
    · simp [erasePendingItem, hk, countKey, ih]

theorem splitAtKey_spec {k : Key} : ∀ {l pre post : List QueueItem} {qi : QueueItem},
    splitAtKey k l = some (pre, qi, post) →
    l = pre ++ qi :: post ∧ qi.key = k ∧ ∀ x ∈ pre, x.key ≠ k := by
  intro l
  induction l with
  | nil => intro pre post qi h; simp [splitAtKey] at h
  | cons x xs ih =>
    intro pre post qi h
    by_cases hx : x.key = k
    · simp only [splitAtKey, if_pos hx, Option.some_inj, Prod.mk.injEq] at h
      obtain ⟨h1, h2, h3⟩ := h
      subst h1; subst h2; subst h3
      exact ⟨rfl, hx, by simp⟩
    · simp only [splitAtKey, if_neg hx] at h
      cases hs : splitAtKey k xs with
      | none => rw [hs] at h; simp at h
      | some r =>
        obtain ⟨pre', qi', post'⟩ := r
        rw [hs] at h
        simp only [Option.some_inj, Prod.mk.injEq] at h
        obtain ⟨h1, h2, h3⟩ := h
        obtain ⟨he, hk, hpre⟩ := ih hs
        subst h1; subst h2; subst h3
        refine ⟨by simp [he], hk, ?_⟩
        intro y hy
        rcases List.mem_cons.mp hy with rfl | hy'
        · exact hx
        · exact hpre y hy'

theorem splitAtKey_none {k : Key} : ∀ {l : List QueueItem},
    splitAtKey k l = none → countKey k l = 0 := by
  intro l
  induction l with
  | nil => intro _; simp [countKey]
  | cons x xs ih =>
    intro h
    by_cases hx : x.key = k
    · simp [splitAtKey, hx] at h
    · simp only [splitAtKey, if_neg hx] at h
      cases hs : splitAtKey k xs with
      | none => simp [countKey, hx, ih hs]
      | some r => obtain ⟨a, b, c⟩ := r; rw [hs] at h; simp at h

theorem splitAtKey_isSome {k : Key} {l : List QueueItem} (h : countKey k l ≠ 0) :
    ∃ pre qi post, splitAtKey k l = some (pre, qi, post) := by
  cases hs : splitAtKey k l with
  | none => exact absurd (splitAtKey_none hs) h
  | some r =>
    obtain ⟨a, b, c⟩ := r
    exact ⟨a, b, c, rfl⟩

theorem splitForInsert_append (w : Time) (l : List QueueItem) :
    (splitForInsert w l).1 ++ (splitForInsert w l).2 = l := by
  induction l with
  | nil => simp [splitForInsert]
  | cons x xs ih =>
    simp only [splitForInsert]
    by_cases h : (splitForInsert w xs).1.isEmpty = true ∧ ¬ x.plannedToStartWorkAt < w
    · have he : (splitForInsert w xs).1 = [] := by
        simpa [List.isEmpty_iff] using h.1
      rw [if_pos (by exact_mod_cast h)]
      simp only [List.nil_append]
      rw [he] at ih
      simp only [List.nil_append] at ih
      rw [ih]
    · rw [if_neg (by exact_mod_cast h)]
      simp [ih]

theorem mem_splitForInsert_fst {w : Time} {l : List QueueItem} {x : QueueItem}
    (h : x ∈ (splitForInsert w l).1) : x ∈ l := by
  rw [← splitForInsert_append w l]
  exact List.mem_append_left _ h

theorem mem_splitForInsert_snd {w : Time} {l : List QueueItem} {x : QueueItem}
    (h : x ∈ (splitForInsert w l).2) : x ∈ l := by
  rw [← splitForInsert_append w l]
  exact List.mem_append_right _ h

theorem splitForInsert_snd_ge (w : Time) (l : List QueueItem) :
    ∀ x ∈ (splitForInsert w l).2, w ≤ x.plannedToStartWorkAt := by
  induction l with
  | nil => simp [splitForInsert]
  | cons y ys ih =>
    intro x hx
    simp only [splitForInsert] at hx
    by_cases h : (splitForInsert w ys).1.isEmpty = true ∧ ¬ y.plannedToStartWorkAt < w
    · rw [if_pos (by exact_mod_cast h)] at hx
      simp only at hx
      rcases List.mem_cons.mp hx with rfl | hx'
      · exact le_of_not_lt h.2
      · exact ih x hx'
    · rw [if_neg (by exact_mod_cast h)] at hx
      exact ih x hx

theorem splitForInsert_fst_lt (w : Time) {l : List QueueItem}
    (hs : l.Pairwise itemLe) :
    ∀ x ∈ (splitForInsert w l).1, x.plannedToStartWorkAt < w := by
  induction l with
  | nil => simp [splitForInsert]
  | cons y ys ih =>
    rcases List.pairwise_cons.mp hs with ⟨hy, hys⟩
    intro x hx
    simp only [splitForInsert] at hx
    by_cases h : (splitForInsert w ys).1.isEmpty = true ∧ ¬ y.plannedToStartWorkAt < w
    · rw [if_pos (by exact_mod_cast h)] at hx
      simp at hx
    · rw [if_neg (by exact_mod_cast h)] at hx
      simp only at hx
      rcases List.mem_cons.mp hx with rfl | hx'
      · rcases Decidable.not_and_iff_or_not.mp h with hne | hlt
        · have hne' : (splitForInsert w ys).1 ≠ [] := fun hh => hne (by simp [hh])
          obtain ⟨z, hz⟩ := List.exists_mem_of_ne_nil _ hne'
          have hz1 := ih hys z hz
          have hz2 : itemLe x z := hy z (mem_splitForInsert_fst hz)
          exact lt_of_le_of_lt hz2.le hz1
        · exact not_not.mp hlt
      · exact ih hys x hx'

theorem pairwise_splitForInsert {w : Time} {v : QueueItem} {l : List QueueItem}
    (hv : v.plannedToStartWorkAt = w) (hseq : ∀ x ∈ l, x.seq < v.seq)
    (hs : l.Pairwise itemLe) :
    ((splitForInsert w l).1 ++ v :: (splitForInsert w l).2).Pairwise itemLe := by
  have hsplit : (splitForInsert w l).1 ++ (splitForInsert w l).2 = l :=
    splitForInsert_append w l
  have hs' : ((splitForInsert w l).1 ++ (splitForInsert w l).2).Pairwise itemLe := by
    rw [hsplit]; exact hs
  rcases List.pairwise_append.mp hs' with ⟨pa, pb, hab⟩
  rw [List.pairwise_append]
  refine ⟨pa, ?_, ?_⟩
  · rw [List.pairwise_cons]
    refine ⟨?_, pb⟩
    intro y hy
    have hge := splitForInsert_snd_ge w l y hy
    rcases lt_or_eq_of_le hge with hlt | heq
    · exact Or.inl (by rw [hv]; exact hlt)
    · exact Or.inr ⟨by rw [hv, heq], hseq y (mem_splitForInsert_snd hy)⟩
  · intro x hx y hy
    rcases List.mem_cons.mp hy with rfl | hy'
    · exact Or.inl (by rw [hv]; exact splitForInsert_fst_lt w hs x hx)
    · exact hab x hx y hy'

theorem pairwise_adjust {w : Time} {v qi : QueueItem} {pre post : List QueueItem}
    (hv : v.plannedToStartWorkAt = w) (hw : w ≤ qi.plannedToStartWorkAt)
    (hseq : ∀ x ∈ pre ++ qi :: post, x.seq < v.seq)
    (hs : (pre ++ qi :: post).Pairwise itemLe) :
    ((splitForInsert w pre).1 ++ v ::
      ((splitForInsert w pre).2 ++ post)).Pairwise itemLe := by
  rcases List.pairwise_append.mp hs with ⟨hpre, hqipost, hcross⟩
  rcases List.pairwise_cons.mp hqipost with ⟨hqi, hpost⟩
  have hsplit : (splitForInsert w pre).1 ++ (splitForInsert w pre).2 = pre :=
    splitForInsert_append w pre
  have hpre' : ((splitForInsert w pre).1 ++ (splitForInsert w pre).2).Pairwise itemLe := by
    rw [hsplit]; exact hpre
  rcases List.pairwise_append.mp hpre' with ⟨pa, pb, hab⟩
  rw [List.pairwise_append]
  refine ⟨pa, ?_, ?_⟩
  · rw [List.pairwise_cons]
    constructor
    · intro y hy
      rcases List.mem_append.mp hy with hyb | hyp
      · have hge := splitForInsert_snd_ge w pre y hyb
        rcases lt_or_eq_of_le hge with hlt | heq
        · exact Or.inl (by rw [hv]; exact hlt)
        · refine Or.inr ⟨by rw [hv, heq], ?_⟩
          exact hseq y (List.mem_append_left _ (mem_splitForInsert_snd hyb))
      · have h1 : qi.plannedToStartWorkAt ≤ y.plannedToStartWorkAt := (hqi y hyp).le
        have h2 : w ≤ y.plannedToStartWorkAt := le_trans hw h1
        rcases lt_or_eq_of_le h2 with hlt | heq
        · exact Or.inl (by rw [hv]; exact hlt)
        · refine Or.inr ⟨by rw [hv, heq], ?_⟩
          exact hseq y (List.mem_append_right _ (List.mem_cons_of_mem _ hyp))
    · rw [List.pairwise_append]
      refine ⟨pb, hpost, ?_⟩
      intro x hx y hy
      exact hcross x (mem_splitForInsert_snd hx) y (List.mem_cons_of_mem _ hy)
  · intro x hx y hy
    rcases List.mem_cons.mp hy with rfl | hy'
    · exact Or.inl (by rw [hv]; exact splitForInsert_fst_lt w hpre x hx)
    · rcases List.mem_append.mp hy' with hyb | hyp
      · exact hab x hx y hyb
      · exact hcross x (mem_splitForInsert_fst hx) y (List.mem_cons_of_mem _ hyp)

theorem alookup_eq_none_iff {α : Type} {k : String} {l : List (String × α)} :
    alookup k l = none ↔ k ∉ l.map Prod.fst := by
  rw [alookup_eq_none]
  constructor
  · intro h hm
    obtain ⟨p, hp, hk⟩ := List.mem_map.mp hm
    exact h p hp hk
  · intro h p hp hk
    exact h (List.mem_map.mpr ⟨p, hp, hk⟩)

theorem countKey_middle (k : Key) (v : QueueItem) (a b : List QueueItem) :
    countKey k (a ++ v :: b) =
      countKey k (a ++ b) + (if v.key = k then 1 else 0) := by
  by_cases hv : v.key = k <;> simp [countKey_append, countKey, hv] <;> omega

theorem map_fst_updateValue (k : Key) (f : QueueItem → QueueItem)
    (l : List (Key × QueueItem)) :
    (updateValue k f l).map Prod.fst = l.map Prod.fst := by
  induction l with
  | nil => simp [updateValue]
  | cons p rest ih =>
    by_cases hp : p.1 = k <;> simp_all [updateValue]

def updateItemFn (k : Key) (f : QueueItem → QueueItem) (it : QueueItem) : QueueItem :=
  if it.key = k then f it else it

theorem updatePendingItems_eq_map (k : Key) (f : QueueItem → QueueItem)
    (l : List QueueItem) : updatePendingItems k f l = l.map (updateItemFn k f) := by
  induction l with
  | nil => simp [updatePendingItems]
  | cons it rest ih => simp [updatePendingItems, updateItemFn, ih]

theorem countKey_updatePendingItems (k' k : Key) (f : QueueItem → QueueItem)
    (hf : ∀ it, (f it).key = it.key) (l : List QueueItem) :
    countKey k' (updatePendingItems k f l) = countKey k' l := by
  induction l with
  | nil => simp [updatePendingItems]
  | cons it rest ih =>
    by_cases hk : it.key = k
    · simp [updatePendingItems, hk, countKey, ih, hf it]
    · simp [updatePendingItems, hk, countKey, ih]

/-- Field updates that do not touch `key`, `plannedToStartWorkAt` or `seq`. -/
def PreservesOrderFields (f : QueueItem → QueueItem) : Prop :=
  ∀ it, (f it).key = it.key ∧ (f it).plannedToStartWorkAt = it.plannedToStartWorkAt ∧
    (f it).seq = it.seq

theorem pairwise_updatePendingItems {k : Key} {f : QueueItem → QueueItem}
    (hf : PreservesOrderFields f) {l : List QueueItem}
    (hs : l.Pairwise itemLe) : (updatePendingItems k f l).Pairwise itemLe := by
  rw [updatePendingItems_eq_map, List.pairwise_map]
  refine hs.imp ?_
  intro a b hab
  unfold itemLe at hab ⊢
  unfold updateItemFn
  by_cases ha : a.key = k <;> by_cases hb : b.key = k <;>
    simp [ha, hb, (hf a).2.1, (hf a).2.2, (hf b).2.1, (hf b).2.2, hab]

theorem seq_updatePendingItems {k : Key} {f : QueueItem → QueueItem}
    (hf : PreservesOrderFields f) {l : List QueueItem} {c : Nat}
    (hl : ∀ it ∈ l, it.seq < c) :
    ∀ it ∈ updatePendingItems k f l, it.seq < c := by
  intro it hit
  rw [updatePendingItems_eq_map] at hit
  obtain ⟨x, hx, rfl⟩ := List.mem_map.mp hit
  unfold updateItemFn
  by_cases hxk : x.key = k
  · simpa [hxk, (hf x).2.2] using hl x hx
  · simpa [hxk] using hl x hx

theorem WF_setRl {ρ : Type} {s : QueueState ρ} (hwf : WF s) (r : ρ) :
    WF { s with rl := r } :=
  ⟨hwf.index_nodup, hwf.proc_nodup, hwf.count_index, hwf.disjoint, hwf.sorted,
   hwf.seq_lt⟩

theorem WF_setValue {ρ : Type} {s : QueueState ρ} (hwf : WF s) {key : Key}
    (v : QueueItem) (hsome : alookup key s.itemsBeingProcessed ≠ none) :
    WF { s with itemsBeingProcessed := setValue key v s.itemsBeingProcessed } := by
  refine ⟨hwf.index_nodup, ?_, hwf.count_index, ?_, hwf.sorted, hwf.seq_lt⟩
  · rw [map_fst_setValue]; exact hwf.proc_nodup
  · intro k hk
    have hkk : k ≠ key := by
      rintro rfl; exact hsome (hwf.disjoint k hk)
    rw [alookup_setValue_ne hkk]
    exact hwf.disjoint k hk

theorem WF_deleteKey {ρ : Type} {s : QueueState ρ} (hwf : WF s) (k : Key) :
    WF { s with itemsBeingProcessed := deleteKey k s.itemsBeingProcessed } := by
  refine ⟨hwf.index_nodup, ?_, hwf.count_index, ?_, hwf.sorted, hwf.seq_lt⟩
  · exact hwf.proc_nodup.sublist ((deleteKey_sublist k _).map Prod.fst)
  · intro k' hk'
    by_cases hkk : k' = k
    · subst hkk; exact alookup_deleteKey_self k' _
    · rw [alookup_deleteKey_ne hkk]
      exact hwf.disjoint k' hk'

theorem WF_updateLoc {ρ : Type} {s : QueueState ρ} (hwf : WF s)
    (oc : InsertOutcome) (k : Key) {f : QueueItem → QueueItem}
    (hf : PreservesOrderFields f) : WF (updateLoc oc k f s) := by
  cases oc with
  | mergedInFlight =>
    show WF { s with itemsBeingProcessed := updateValue k f s.itemsBeingProcessed }
    refine ⟨hwf.index_nodup, ?_, hwf.count_index, ?_, hwf.sorted, hwf.seq_lt⟩
    · show ((updateValue k f s.itemsBeingProcessed).map Prod.fst).Nodup
      rw [map_fst_updateValue]; exact hwf.proc_nodup
    · intro k' hk'
      show alookup k' (updateValue k f s.itemsBeingProcessed) = none
      rw [alookup_eq_none_iff, map_fst_updateValue, ← alookup_eq_none_iff]
      exact hwf.disjoint k' hk'
  | adjustedPending =>
    show WF { s with items := updatePendingItems k f s.items }
    refine ⟨hwf.index_nodup, hwf.proc_nodup, ?_, hwf.disjoint, ?_, ?_⟩
    · intro k'
      show countKey k' (updatePendingItems k f s.items) = _
      rw [countKey_updatePendingItems k' k f (fun it => (hf it).1)]
      exact hwf.count_index k'
    · exact pairwise_updatePendingItems hf hwf.sorted
    · exact seq_updatePendingItems hf hwf.seq_lt
  | addedNew =>
    show WF { s with items := updatePendingItems k f s.items }
    refine ⟨hwf.index_nodup, hwf.proc_nodup, ?_, hwf.disjoint, ?_, ?_⟩
    · intro k'
      show countKey k' (updatePendingItems k f s.items) = _
      rw [countKey_updatePendingItems k' k f (fun it => (hf it).1)]
      exact hwf.count_index k'
    · exact pairwise_updatePendingItems hf hwf.sorted
    · exact seq_updatePendingItems hf hwf.seq_lt

theorem WF_addNew {ρ : Type} {s : QueueState ρ} (hwf : WF s) {key : Key}
    (val : QueueItem) (pt : Time) (r : ρ)
    (hbp : alookup key s.itemsBeingProcessed = none)
    (hmem : key ∉ s.itemsInQueue) (hk : val.key = key)
    (hpt : val.plannedToStartWorkAt = pt)
    (hseq : val.seq = s.seqCounter) :
    WF { s with rl := r,
                items := (splitForInsert pt s.items).1 ++
                         val :: (splitForInsert pt s.items).2,
                itemsInQueue := key :: s.itemsInQueue,
                seqCounter := s.seqCounter + 1 } := by
  have hcnt0 : countKey key s.items = 0 := by
    rw [hwf.count_index key, if_neg hmem]
  refine ⟨?_, hwf.proc_nodup, ?_, ?_, ?_, ?_⟩
  · exact List.nodup_cons.mpr ⟨hmem, hwf.index_nodup⟩
  · intro k
    show countKey k ((splitForInsert pt s.items).1 ++
          val :: (splitForInsert pt s.items).2) = _
    rw [countKey_middle, splitForInsert_append]
    by_cases hkk : k = key
    · subst hkk
      simp [hcnt0, hk]
    · rw [hwf.count_index k]
      have hne : val.key ≠ k := by rw [hk]; exact fun hh => hkk hh.symm
      have hmem' : (k ∈ key :: s.itemsInQueue) ↔ k ∈ s.itemsInQueue := by
        simp [List.mem_cons, hkk]
      by_cases hm : k ∈ s.itemsInQueue <;> simp [hm, hne, hmem']
  · intro k hkm
    rcases List.mem_cons.mp hkm with rfl | hkm'
    · exact hbp
    · exact hwf.disjoint k hkm'
  · exact pairwise_splitForInsert hpt
      (fun x hx => by rw [hseq]; exact hwf.seq_lt x hx) hwf.sorted
  · intro it hit
    rcases List.mem_append.mp hit with hA | hB
    · exact lt_trans (hwf.seq_lt it (mem_splitForInsert_fst hA)) (Nat.lt_succ_self _)
    · rcases List.mem_cons.mp hB with rfl | hB'
      · rw [hseq]; exact Nat.lt_succ_self _
      · exact lt_trans (hwf.seq_lt it (mem_splitForInsert_snd hB')) (Nat.lt_succ_self _)

theorem WF_adjustMove {ρ : Type} {s : QueueState ρ} (hwf : WF s)
    {pre post : List QueueItem} {qi : QueueItem} {w : Time}
    (hitems : s.items = pre ++ qi :: post)
    (hw : w ≤ qi.plannedToStartWorkAt) :
    WF { s with items := (splitForInsert w pre).1 ++
                  ({ qi with plannedToStartWorkAt := w, seq := s.seqCounter }) ::
                  ((splitForInsert w pre).2 ++ post),
                seqCounter := s.seqCounter + 1 } := by
  have hsortedOld : (pre ++ qi :: post).Pairwise itemLe := by
    rw [← hitems]; exact hwf.sorted
  have hseqOld : ∀ x ∈ pre ++ qi :: post, x.seq < s.seqCounter := by
    rw [← hitems]; exact hwf.seq_lt
  refine ⟨hwf.index_nodup, hwf.proc_nodup, ?_, hwf.disjoint, ?_, ?_⟩
  · intro k
    show countKey k ((splitForInsert w pre).1 ++
          ({ qi with plannedToStartWorkAt := w, seq := s.seqCounter }) ::
          ((splitForInsert w pre).2 ++ post)) = _
    rw [countKey_middle]
    have h1 : countKey k ((splitForInsert w pre).1 ++
        ((splitForInsert w pre).2 ++ post)) = countKey k pre + countKey k post := by
      rw [countKey_append, countKey_append, ← Nat.add_assoc,
          ← countKey_append, splitForInsert_append]
    rw [h1, hwf.count_index k |>.symm, hitems, countKey_middle, countKey_append]
  · exact pairwise_adjust rfl hw hseqOld hsortedOld
  · intro it hit
    rcases List.mem_append.mp hit with hA | hB
    · exact lt_trans
        (hseqOld it (List.mem_append_left _ (mem_splitForInsert_fst hA)))
        (Nat.lt_succ_self _)
    · rcases List.mem_cons.mp hB with rfl | hB'
      · exact Nat.lt_succ_self _
      · rcases List.mem_append.mp hB' with hB2 | hB3
        · exact lt_trans
            (hseqOld it (List.mem_append_left _ (mem_splitForInsert_snd hB2)))
            (Nat.lt_succ_self _)
        · exact lt_trans
            (hseqOld it (List.mem_append_right _ (List.mem_cons_of_mem _ hB3)))
            (Nat.lt_succ_self _)

theorem insert_WF {ρ : Type} {lim : RateLimiter ρ} {cn : Time} {s : QueueState ρ}
    {key : Key} {rlmt : Bool} {d : Duration} {s' : QueueState ρ} {it : QueueItem}
    {oc : InsertOutcome} (hwf : WF s)
    (h : Queue.insert lim cn s key rlmt d = .ok (s', it, oc)) : WF s' := by
  unfold Queue.insert at h
  cases hbp : alookup key s.itemsBeingProcessed with
  | some item =>
    rw [hbp] at h
    simp only [Except.ok.injEq, Prod.mk.injEq] at h
    obtain ⟨h1, -, -⟩ := h
    rw [← h1]
    exact WF_setValue hwf _ (by simp [hbp])
  | none =>
    rw [hbp] at h
    by_cases hmem : key ∈ s.itemsInQueue
    · rw [if_pos hmem] at h
      cases hsk : splitAtKey key s.items with
      | some r =>
        obtain ⟨pre, qi, post⟩ := r
        rw [hsk] at h
        obtain ⟨hitems, hqik, -⟩ := splitAtKey_spec hsk
        by_cases hlt : qi.plannedToStartWorkAt < cn + d
        · simp only [adjustPosition, if_pos hlt, Except.ok.injEq, Prod.mk.injEq] at h
          obtain ⟨h1, -, -⟩ := h
          rw [← h1]
          have heq : ({ s with items := pre ++ qi :: post, seqCounter := s.seqCounter } : QueueState ρ) = s := by
            rw [← hitems]
          rw [heq]; exact hwf
        · simp only [adjustPosition, if_neg hlt, Except.ok.injEq, Prod.mk.injEq] at h
          obtain ⟨h1, -, -⟩ := h
          rw [← h1]
          exact WF_adjustMove hwf hitems (not_lt.mp hlt)
      | none =>
        rw [hsk] at h
        simp only [Except.ok.injEq, Prod.mk.injEq] at h
        obtain ⟨h1, -, -⟩ := h
        rw [← h1]; exact hwf
    · rw [if_neg hmem] at h
      cases rlmt with
      | true =>
        simp only [if_true] at h
        by_cases hd : d > 0
        · rw [if_pos hd] at h
          exact absurd h (by simp)
        · rw [if_neg hd] at h
          simp only [Except.ok.injEq, Prod.mk.injEq] at h
          obtain ⟨h1, -, -⟩ := h
          rw [← h1]
          exact WF_addNew hwf _ _ _ hbp hmem rfl rfl rfl
      | false =>
        simp only [Bool.false_eq_true, if_false] at h
        simp only [Except.ok.injEq, Prod.mk.injEq] at h
        obtain ⟨h1, -, -⟩ := h
        rw [← h1]
        exact WF_addNew hwf _ _ s.rl hbp hmem rfl rfl rfl

theorem Forget_WF {ρ : Type} {s : QueueState ρ} (hwf : WF s) (key : Key) :
    WF (Forget s key) := by
  unfold Forget
  by_cases hmem : key ∈ s.itemsInQueue
  · rw [if_pos hmem]
    have hcnt1 : countKey key s.items = 1 := by
      rw [hwf.count_index key, if_pos hmem]
    refine ⟨?_, hwf.proc_nodup, ?_, ?_, ?_, ?_⟩
    · exact hwf.index_nodup.sublist (eraseKey_sublist key s.itemsInQueue)
    · intro k
      show countKey k (erasePendingItem key s.items) = _
      by_cases hkk : k = key
      · subst hkk
        rw [countKey_erasePendingItem_self, hcnt1]
        have : k ∉ eraseKey k s.itemsInQueue := by
          rw [mem_eraseKey hwf.index_nodup]
          simp
        rw [if_neg this]
      · rw [countKey_erasePendingItem_ne hkk]
        have : (k ∈ eraseKey key s.itemsInQueue) ↔ k ∈ s.itemsInQueue := by
          rw [mem_eraseKey hwf.index_nodup]
          simp [hkk]
        rw [hwf.count_index k]
        by_cases hm : k ∈ s.itemsInQueue <;> simp [hm, this]
    · intro k hk
      exact hwf.disjoint k ((mem_eraseKey hwf.index_nodup).mp hk).1
    · exact hwf.sorted.sublist (erasePendingItem_sublist key s.items)
    · intro it hit
      exact hwf.seq_lt it ((erasePendingItem_sublist key s.items).subset hit)
  · rw [if_neg hmem]
    cases hbp : alookup key s.itemsBeingProcessed with
    | some qi => exact WF_setValue hwf _ (by simp [hbp])
    | none => exact hwf

theorem pickup_WF {ρ : Type} {wn : Time} {s s' : QueueState ρ} {it : QueueItem}
    (hwf : WF s) (h : pickupNext wn s = some (s', it)) : WF s' := by
  unfold pickupNext at h
  split at h
  · exact absurd h (by simp)
  · rename_i qi rest hitems
    split at h
    · rename_i hdue
      simp only [Option.some_inj, Prod.mk.injEq] at h
      obtain ⟨h1, -⟩ := h
      have hcnt : countKey qi.key s.items = (if qi.key ∈ s.itemsInQueue then 1 else 0) :=
        hwf.count_index qi.key
      have hcons : countKey qi.key s.items = 1 + countKey qi.key rest := by
        rw [hitems]; simp [countKey]
      have hmem : qi.key ∈ s.itemsInQueue := by
        by_contra hc
        rw [if_neg hc] at hcnt
        omega
      have hrest0 : countKey qi.key rest = 0 := by
        rw [if_pos hmem] at hcnt; omega
      have hbp : alookup qi.key s.itemsBeingProcessed = none := hwf.disjoint qi.key hmem
      rw [← h1]
      have hsa : setOrAdd qi.key qi s.itemsBeingProcessed =
          (qi.key, qi) :: s.itemsBeingProcessed := setOrAdd_of_none hbp qi
      rw [hsa]
      have hsorted_rest : rest.Pairwise itemLe := by
        have hh := hwf.sorted
        rw [hitems] at hh
        exact (List.pairwise_cons.mp hh).2
      refine ⟨?_, ?_, ?_, ?_, hsorted_rest, ?_⟩
      · exact hwf.index_nodup.sublist (eraseKey_sublist qi.key s.itemsInQueue)
      · show (((qi.key, qi) :: s.itemsBeingProcessed).map Prod.fst).Nodup
        rw [List.map_cons, List.nodup_cons]
        exact ⟨alookup_eq_none_iff.mp hbp, hwf.proc_nodup⟩
      · intro k
        show countKey k rest = _
        by_cases hkk : k = qi.key
        · subst hkk
          rw [hrest0]
          have hne : qi.key ∉ eraseKey qi.key s.itemsInQueue := by
            rw [mem_eraseKey hwf.index_nodup]; simp
          rw [if_neg hne]
        · have hcnt' : countKey k s.items = (if k ∈ s.itemsInQueue then 1 else 0) :=
            hwf.count_index k
          have hqik : qi.key ≠ k := fun hh => hkk hh.symm
          have heq2 : countKey k s.items = countKey k rest := by
            rw [hitems]; simp [countKey, hqik]
          have hmm : (k ∈ eraseKey qi.key s.itemsInQueue) ↔ k ∈ s.itemsInQueue := by
            rw [mem_eraseKey hwf.index_nodup]; simp [hkk]
          rw [← heq2, hcnt']
          by_cases hm : k ∈ s.itemsInQueue <;> simp [hm, hmm]
      · intro k hk
        have hk' := (mem_eraseKey hwf.index_nodup).mp hk
        show (if qi.key = k then some qi else alookup k s.itemsBeingProcessed) = none
        rw [if_neg (fun hh => hk'.2 hh.symm)]
        exact hwf.disjoint k hk'.1
      · intro x hx
        refine hwf.seq_lt x ?_
        rw [hitems]
        exact List.mem_cons_of_mem _ hx
    · exact absurd h (by simp)

theorem complete_WF {ρ : Type} {lim : RateLimiter ρ} {cn wn : Time} {err : Bool}
    {qi : QueueItem} {s s' : QueueState ρ} {r : Bool} (hwf : WF s)
    (h : completeQueueItem lim cn wn err qi s = .ok (s', r)) : WF s' := by
  unfold completeQueueItem at h
  have hwf1 : WF { s with itemsBeingProcessed := deleteKey qi.key s.itemsBeingProcessed } :=
    WF_deleteKey hwf qi.key
  by_cases hfg : qi.forget = true
  · rw [if_pos hfg] at h
    simp only [Except.ok.injEq, Prod.mk.injEq] at h
    obtain ⟨h1, -⟩ := h
    rw [← h1]
    exact WF_setRl hwf1 _
  · rw [if_neg hfg] at h
    by_cases hretry : err = true ∧ qi.requeues + 1 < MaxRetries
    · rw [if_pos hretry] at h
      split at h
      · exact absurd h (by simp)
      · rename_i s2 it2 oc2 hins
        simp only [Except.ok.injEq, Prod.mk.injEq] at h
        obtain ⟨h1, -⟩ := h
        rw [← h1]
        exact WF_updateLoc (insert_WF hwf1 hins) oc2 qi.key
          (fun it => ⟨rfl, rfl, rfl⟩)
    · rw [if_neg hretry] at h
      by_cases hrd : qi.redirtiedAt = 0
      · rw [if_pos hrd] at h
        simp only [Except.ok.injEq, Prod.mk.injEq] at h
        obtain ⟨h1, -⟩ := h
        rw [← h1]
        exact WF_setRl hwf1 _
      · rw [if_neg hrd] at h
        split at h
        · exact absurd h (by simp)
        · rename_i s3 it3 oc3 hins
          simp only [Except.ok.injEq, Prod.mk.injEq] at h
          obtain ⟨h1, -⟩ := h
          rw [← h1]
          exact WF_updateLoc (insert_WF (WF_setRl hwf1 _) hins) oc3 qi.key
            (fun it => ⟨rfl, rfl, rfl⟩)

/-- Keys mentioned anywhere in a queue state. -/
def queueKeys {ρ : Type} (s : QueueState ρ) : List Key :=
  s.items.map (fun it => it.key) ++ s.itemsInQueue ++ s.itemsBeingProcessed.map Prod.fst

/-- Decidable sufficient condition for `WF` (quantifiers restricted to the
finitely many keys present in the state). -/
def WFdec {ρ : Type} (s : QueueState ρ) : Prop :=
  s.itemsInQueue.Nodup ∧ (s.itemsBeingProcessed.map Prod.fst).Nodup ∧
  (∀ k ∈ queueKeys s, countKey k s.items = if k ∈ s.itemsInQueue then 1 else 0) ∧
  (∀ k ∈ s.itemsInQueue, alookup k s.itemsBeingProcessed = none) ∧
  s.items.Pairwise itemLe ∧ (∀ it ∈ s.items, it.seq < s.seqCounter)

instance WFdec.decidable {ρ : Type} (s : QueueState ρ) : Decidable (WFdec s) := by
  unfold WFdec; exact inferInstance

theorem countKey_eq_zero_of_not_mem {k : Key} {l : List QueueItem}
    (h : k ∉ l.map (fun it => it.key)) : countKey k l = 0 := by
  rw [countKey_eq_zero]
  intro it hit hk
  exact h (List.mem_map.mpr ⟨it, hit, hk⟩)

theorem WF_of_dec {ρ : Type} {s : QueueState ρ} (h : WFdec s) : WF s := by
  obtain ⟨h1, h2, h3, h4, h5, h6⟩ := h
  refine ⟨h1, h2, ?_, h4, h5, h6⟩
  intro k
  by_cases hk : k ∈ queueKeys s
  · exact h3 k hk
  · have hki : k ∉ s.itemsInQueue := fun hm =>
      hk (List.mem_append.mpr (Or.inl (List.mem_append.mpr (Or.inr hm))))
    have hkl : k ∉ s.items.map (fun it => it.key) := fun hm =>
      hk (List.mem_append.mpr (Or.inl (List.mem_append.mpr (Or.inl hm))))
    rw [countKey_eq_zero_of_not_mem hkl, if_neg hki]

/-- The tie rule asserted by the specification, stated with the ghost counter:
among items with equal `plannedToStartWorkAt`, the earlier-scheduled item
(smaller `seq`; for freshly enqueued keys, insertion order) comes first. -/
def tiesInInsertionOrder (l : List QueueItem) : Prop :=
  l.Pairwise (fun x y =>
    x.plannedToStartWorkAt ≠ y.plannedToStartWorkAt ∨ x.seq < y.seq)

instance tiesInInsertionOrder.decidable (l : List QueueItem) :
    Decidable (tiesInInsertionOrder l) := by
  unfold tiesInInsertionOrder; exact inferInstance

/-- A rate limiter whose backoff is always zero and whose state is trivial;
used to drive the model on concrete scenarios. -/
def lim0 : RateLimiter Unit := ⟨fun u _ => (0, u), fun u _ => u⟩

/-- The state of a freshly constructed queue (Go `New`,
src/pkg/utils/log/log.go:134-146). -/
def emptyState : QueueState Unit :=
  { rl := (), running := false, items := [], itemsInQueue := [],
    itemsBeingProcessed := [], seqCounter := 0 }

/-- Project the state out of a non-panicking insert result. -/
def okState : Except String (QueueState Unit × QueueItem × InsertOutcome) → QueueState Unit
  | .ok p => p.1
  | .error _ => emptyState

/-- Scenario: `EnqueueWithoutRateLimit "a"` on a fresh queue at clock 0. -/
def tieScenario1 : QueueState Unit := okState (EnqueueWithoutRateLimit lim0 0 emptyState "a")

/-- Scenario: then `EnqueueWithoutRateLimit "b"`, still at clock 0. -/
def tieScenario2 : QueueState Unit := okState (EnqueueWithoutRateLimit lim0 0 tieScenario1 "b")

/-- C1, counterexample to the tie clause: enqueueing "a" and then "b" without
rate limit at the same clock instant leaves the pending list as
`["b", "a"]` — both planned for time 0, but in REVERSE insertion order, so the
invariant "ties keep insertion order" does not hold after the second
(invariant-preserving per the claim) public operation. -/
theorem C1_ties_counterexample :
    tieScenario2.items.map (fun it => it.key) = ["b", "a"] ∧
    tieScenario2.items.map (fun it => it.plannedToStartWorkAt) = [0, 0] ∧
    tiesInInsertionOrder tieScenario1.items ∧
    ¬ tiesInInsertionOrder tieScenario2.items := by
  decide

/-- C1 (amended): every public queue operation — `insert` and its wrappers
`Enqueue`, `EnqueueWithoutRateLimit`, `EnqueueWithoutRateLimitWithDelay`,
`Forget`, `getNextItem`'s pickup and the completion step — preserves the state
invariants `WF`: each key is in `itemsInQueue` iff it occurs exactly once in
`items`, no key is simultaneously pending and in `itemsBeingProcessed`, and
`items` is ordered non-decreasingly by `plannedToStartWorkAt` — but with ties
ordered most-recently-scheduled first (reverse insertion order for fresh
inserts), not in insertion order as claimed. -/
theorem C1_invariants_preserved {ρ : Type} (lim : RateLimiter ρ) (cn wn delay : Time)
    (key : Key) (rlmt err : Bool) (qi : QueueItem) (s : QueueState ρ) (hwf : WF s) :
    (∀ s' it oc, Queue.insert lim cn s key rlmt delay = .ok (s', it, oc) → WF s') ∧
    (∀ s' it oc, Enqueue lim cn s key = .ok (s', it, oc) → WF s') ∧
    (∀ s' it oc, EnqueueWithoutRateLimit lim cn s key = .ok (s', it, oc) → WF s') ∧
    (∀ s' it oc,
      EnqueueWithoutRateLimitWithDelay lim cn s key delay = .ok (s', it, oc) → WF s') ∧
    WF (Forget s key) ∧
    (∀ s' it, pickupNext wn s = some (s', it) → WF s') ∧
    (∀ s' r, completeQueueItem lim cn wn err qi s = .ok (s', r) → WF s') := by
  refine ⟨?_, ?_, ?_, ?_, Forget_WF hwf key, ?_, ?_⟩
  · intro s' it oc h; exact insert_WF hwf h
  · intro s' it oc h; exact insert_WF hwf h
  · intro s' it oc h; exact insert_WF hwf h
  · intro s' it oc h; exact insert_WF hwf h
  · intro s' it h; exact pickup_WF hwf h
  · intro s' r h; exact complete_WF hwf h

/-- Witness for C1: the preservation theorem applied to a concrete well-formed
state (a queue holding the single pending key "a"). -/
theorem C1_invariants_preserved_witness : WF (Forget tieScenario1 "a") :=
  (C1_invariants_preserved lim0 0 0 0 "a" false false (deadItem "a") tieScenario1
    (WF_of_dec (by decide))).2.2.2.2.1

/-- The item produced by the in-flight branch of `insert`
(src/pkg/utils/log/log.go:214-227). -/
def mergeItem (cn delay : Time) (ratelimit : Bool) (item : QueueItem) : QueueItem :=
  if item.redirtiedAt = 0 ∨ cn + delay < item.redirtiedAt then
    { item with redirtiedAt := cn + delay, redirtiedWithRatelimit := ratelimit,
                forget := false }
  else { item with forget := false }

theorem insert_inflight_eq {ρ : Type} (lim : RateLimiter ρ) (cn delay : Time)
    (s : QueueState ρ) (key : Key) (rlmt : Bool) {item : QueueItem}
    (hbp : alookup key s.itemsBeingProcessed = some item) :
    Queue.insert lim cn s key rlmt delay = .ok
      ({ s with itemsBeingProcessed :=
          setValue key (mergeItem cn delay rlmt item) s.itemsBeingProcessed },
        mergeItem cn delay rlmt item, .mergedInFlight) := by
  unfold Queue.insert mergeItem
  rw [hbp]
  by_cases h0 : item.redirtiedAt = 0
  · simp [h0]
  · by_cases h1 : cn + delay < item.redirtiedAt
    · simp [h0, h1]
    · simp [h0, h1]

/-- The fresh item created by the new-insertion branch of `insert`
(src/pkg/utils/log/log.go:239-244), before the delay is applied. -/
def freshItem (cn : Time) (key : Key) (c : Nat) : QueueItem :=
  { key := key, plannedToStartWorkAt := cn, redirtiedAt := 0,
    redirtiedWithRatelimit := false, forget := false, requeues := 0,
    originallyAdded := cn, addedViaRedirty := false,
    delayedViaRateLimit := none, seq := c }

theorem insert_fresh_rl_eq {ρ : Type} (lim : RateLimiter ρ) (cn delay : Time)
    (s : QueueState ρ) (key : Key)
    (hbp : alookup key s.itemsBeingProcessed = none)
    (hmem : key ∉ s.itemsInQueue) (hd : delay ≤ 0) :
    Queue.insert lim cn s key true delay = .ok
      ({ s with rl := (lim.whenFn s.rl key).2,
                items := (splitForInsert (cn + (lim.whenFn s.rl key).1) s.items).1 ++
                  ({ freshItem cn key s.seqCounter with
                      plannedToStartWorkAt := cn + (lim.whenFn s.rl key).1,
                      delayedViaRateLimit := some (lim.whenFn s.rl key).1 }) ::
                  (splitForInsert (cn + (lim.whenFn s.rl key).1) s.items).2,
                itemsInQueue := key :: s.itemsInQueue,
                seqCounter := s.seqCounter + 1 },
        { freshItem cn key s.seqCounter with
            plannedToStartWorkAt := cn + (lim.whenFn s.rl key).1,
            delayedViaRateLimit := some (lim.whenFn s.rl key).1 }, .addedNew) := by
  unfold Queue.insert freshItem
  rw [hbp]
  simp [hmem, not_lt.mpr hd]

theorem insert_fresh_rl_panic {ρ : Type} (lim : RateLimiter ρ) (cn delay : Time)
    (s : QueueState ρ) (key : Key)
    (hbp : alookup key s.itemsBeingProcessed = none)
    (hmem : key ∉ s.itemsInQueue) (hd : 0 < delay) :
    Queue.insert lim cn s key true delay =
      .error "Non-zero delay with rate limiting not supported" := by
  unfold Queue.insert
  rw [hbp]
  simp [hmem, hd]

theorem insert_fresh_norl_eq {ρ : Type} (lim : RateLimiter ρ) (cn delay : Time)
    (s : QueueState ρ) (key : Key)
    (hbp : alookup key s.itemsBeingProcessed = none)
    (hmem : key ∉ s.itemsInQueue) :
    Queue.insert lim cn s key false delay = .ok
      ({ s with items := (splitForInsert (cn + delay) s.items).1 ++
                  ({ freshItem cn key s.seqCounter with
                      plannedToStartWorkAt := cn + delay }) ::
                  (splitForInsert (cn + delay) s.items).2,
                itemsInQueue := key :: s.itemsInQueue,
                seqCounter := s.seqCounter + 1 },
        { freshItem cn key s.seqCounter with plannedToStartWorkAt := cn + delay },
        .addedNew) := by
  unfold Queue.insert freshItem
  rw [hbp]
  simp [hmem]

/-- The item after `adjustPosition` moved it forward. -/
def adjustedItem (w : Time) (c : Nat) (qi : QueueItem) : QueueItem :=
  { qi with plannedToStartWorkAt := w, seq := c }

/-- The state after `adjustPosition` moved the pending item for a key forward
to time `w`, given the decomposition `items = pre ++ qi :: post`. -/
def adjustedState {ρ : Type} (s : QueueState ρ) (w : Time) (pre post : List QueueItem)
    (qi : QueueItem) : QueueState ρ :=
  { s with items := (splitForInsert w pre).1 ++ adjustedItem w s.seqCounter qi :: ((splitForInsert w pre).2 ++ post), seqCounter := s.seqCounter + 1 }

theorem insert_pending_eq {ρ : Type} (lim : RateLimiter ρ) (cn delay : Time)
    (s : QueueState ρ) (key : Key) (rlmt : Bool)
    {pre post : List QueueItem} {qi : QueueItem}
    (hbp : alookup key s.itemsBeingProcessed = none)
    (hmem : key ∈ s.itemsInQueue)
    (hsk : splitAtKey key s.items = some (pre, qi, post)) :
    Queue.insert lim cn s key rlmt delay =
      (if qi.plannedToStartWorkAt < cn + delay then .ok (s, qi, .adjustedPending)
       else .ok (adjustedState s (cn + delay) pre post qi,
                 adjustedItem (cn + delay) s.seqCounter qi, .adjustedPending)) := by
  have hitems := (splitAtKey_spec hsk).1
  unfold Queue.insert adjustPosition adjustedState adjustedItem
  rw [hbp, if_pos hmem, hsk]
  by_cases hlt : qi.plannedToStartWorkAt < cn + delay
  · simp [hlt, ← hitems]
  · simp [hlt]

/-- A queue state with key "a" in flight (as after a pickup). -/
def inFlightA : QueueState Unit :=
  { rl := (), running := true, items := [], itemsInQueue := [],
    itemsBeingProcessed := [("a", deadItem "a")], seqCounter := 1 }

/-- A queue state with key "a" pending with delay 3 from clock 0. -/
def pendingA : QueueState Unit :=
  okState (EnqueueWithoutRateLimitWithDelay lim0 0 emptyState "a" 3)

/-- C6: an insert for a key currently in `itemsBeingProcessed` adds nothing to
the pending list or index, updates `redirtiedAt` to `now + delay` exactly when
`redirtiedAt` is zero or `now + delay` is earlier (recording
`redirtiedWithRatelimit := ratelimit` in those same cases), clears the
`forget` flag, and returns the existing in-flight item. -/
theorem C6_inflight_insert_merges {ρ : Type} (lim : RateLimiter ρ) (cn delay : Time)
    (s : QueueState ρ) (key : Key) (rlmt : Bool) (item : QueueItem)
    (hbp : alookup key s.itemsBeingProcessed = some item) :
    ∃ s' item', Queue.insert lim cn s key rlmt delay = .ok (s', item', .mergedInFlight) ∧
      s'.items = s.items ∧
      s'.itemsInQueue = s.itemsInQueue ∧
      s'.rl = s.rl ∧
      item' = (if item.redirtiedAt = 0 ∨ cn + delay < item.redirtiedAt
        then { item with redirtiedAt := cn + delay, redirtiedWithRatelimit := rlmt, forget := false }
        else { item with forget := false }) ∧
      item'.forget = false ∧
      alookup key s'.itemsBeingProcessed = some item' ∧
      (∀ k', k' ≠ key →
        alookup k' s'.itemsBeingProcessed = alookup k' s.itemsBeingProcessed) := by
  refine ⟨_, _, insert_inflight_eq lim cn delay s key rlmt hbp, rfl, rfl, rfl, rfl, ?_, ?_, ?_⟩
  · unfold mergeItem
    by_cases h : item.redirtiedAt = 0 ∨ cn + delay < item.redirtiedAt <;> simp [h]
  · rw [alookup_setValue_self, hbp]
    rfl
  · intro k' hk'
    exact alookup_setValue_ne hk' _ _

/-- Witness for C6: a rate-limited enqueue of "a" while "a" is in flight, with
delay 5... the in-flight item has `redirtiedAt = 0`, so it is set to 5. -/
theorem C6_inflight_insert_merges_witness :
    ∃ s' item', Queue.insert lim0 0 inFlightA "a" true 5 = .ok (s', item', .mergedInFlight) ∧
      s'.items = inFlightA.items ∧
      s'.itemsInQueue = inFlightA.itemsInQueue ∧
      s'.rl = inFlightA.rl ∧
      item' = (if (deadItem "a").redirtiedAt = 0 ∨ 0 + 5 < (deadItem "a").redirtiedAt
        then { deadItem "a" with redirtiedAt := 0 + 5, redirtiedWithRatelimit := true, forget := false }
        else { deadItem "a" with forget := false }) ∧
      item'.forget = false ∧
      alookup "a" s'.itemsBeingProcessed = some item' ∧
      (∀ k', k' ≠ "a" →
        alookup k' s'.itemsBeingProcessed = alookup k' inFlightA.itemsBeingProcessed) :=
  C6_inflight_insert_merges lim0 0 5 inFlightA "a" true (deadItem "a") (by decide)

/-- C7: completing an item whose `forget` flag is set resets the rate limiter
for the key, removes it from `itemsBeingProcessed` and returns success
regardless of the handler result; nothing is (re)enqueued even when
`redirtiedAt` is non-zero. -/
theorem C7_forget_completion {ρ : Type} (lim : RateLimiter ρ) (cn wn : Time)
    (err : Bool) (qi : QueueItem) (s : QueueState ρ) (hfg : qi.forget = true) :
    ∃ s', completeQueueItem lim cn wn err qi s = .ok (s', false) ∧
      s'.items = s.items ∧
      s'.itemsInQueue = s.itemsInQueue ∧
      countKey qi.key s'.items = countKey qi.key s.items ∧
      alookup qi.key s'.itemsBeingProcessed = none ∧
      (∀ k', k' ≠ qi.key →
        alookup k' s'.itemsBeingProcessed = alookup k' s.itemsBeingProcessed) ∧
      s'.rl = lim.forgetFn s.rl qi.key := by
  refine ⟨{ s with itemsBeingProcessed := deleteKey qi.key s.itemsBeingProcessed, rl := lim.forgetFn s.rl qi.key },
    ?_, rfl, rfl, rfl, alookup_deleteKey_self _ _,
    fun k' hk' => alookup_deleteKey_ne hk' _, rfl⟩
  unfold completeQueueItem
  rw [if_pos hfg]

/-- Witness for C7: completing a re-dirtied but forgotten in-flight "a" after a
failed handler call drops it entirely. -/
theorem C7_forget_completion_witness :
    ∃ s', completeQueueItem lim0 0 0 true
        { deadItem "a" with forget := true, redirtiedAt := 7 } inFlightA = .ok (s', false) ∧
      s'.items = inFlightA.items ∧
      s'.itemsInQueue = inFlightA.itemsInQueue ∧
      countKey "a" s'.items = countKey "a" inFlightA.items ∧
      alookup "a" s'.itemsBeingProcessed = none ∧
      (∀ k', k' ≠ "a" →
        alookup k' s'.itemsBeingProcessed = alookup k' inFlightA.itemsBeingProcessed) ∧
      s'.rl = lim0.forgetFn inFlightA.rl "a" :=
  C7_forget_completion lim0 0 0 true
    { deadItem "a" with forget := true, redirtiedAt := 7 } inFlightA rfl

/-- C8: `Forget` on a pending key removes it from the pending list and the
index while leaving the rate limiter and the in-flight map untouched; on an
in-flight key it only sets that item's `forget` flag; on an absent key it is a
no-op. -/
theorem C8_forget_cases {ρ : Type} (s : QueueState ρ) (key : Key) (hwf : WF s) :
    (key ∈ s.itemsInQueue →
      (Forget s key).rl = s.rl ∧
      (Forget s key).itemsBeingProcessed = s.itemsBeingProcessed ∧
      key ∉ (Forget s key).itemsInQueue ∧
      countKey key (Forget s key).items = 0 ∧
      (∀ k', k' ≠ key →
        ((k' ∈ (Forget s key).itemsInQueue) ↔ k' ∈ s.itemsInQueue) ∧
        countKey k' (Forget s key).items = countKey k' s.items)) ∧
    (∀ qi, alookup key s.itemsBeingProcessed = some qi →
      (Forget s key).items = s.items ∧
      (Forget s key).itemsInQueue = s.itemsInQueue ∧
      (Forget s key).rl = s.rl ∧
      alookup key (Forget s key).itemsBeingProcessed = some { qi with forget := true } ∧
      (∀ k', k' ≠ key →
        alookup k' (Forget s key).itemsBeingProcessed =
          alookup k' s.itemsBeingProcessed)) ∧
    (key ∉ s.itemsInQueue → alookup key s.itemsBeingProcessed = none →
      Forget s key = s) := by
  refine ⟨?_, ?_, ?_⟩
  · intro hmem
    unfold Forget
    rw [if_pos hmem]
    refine ⟨rfl, rfl, ?_, ?_, ?_⟩
    · show key ∉ eraseKey key s.itemsInQueue
      rw [mem_eraseKey hwf.index_nodup]
      simp
    · show countKey key (erasePendingItem key s.items) = 0
      rw [countKey_erasePendingItem_self]
      rw [hwf.count_index key, if_pos hmem]
    · intro k' hk'
      constructor
      · show (k' ∈ eraseKey key s.itemsInQueue) ↔ _
        rw [mem_eraseKey hwf.index_nodup]
        simp [hk']
      · exact countKey_erasePendingItem_ne hk' s.items
  · intro qi hbp
    have hmem : key ∉ s.itemsInQueue := by
      intro hm
      rw [hwf.disjoint key hm] at hbp
      cases hbp
    unfold Forget
    rw [if_neg hmem, hbp]
    refine ⟨rfl, rfl, rfl, ?_, ?_⟩
    · show alookup key (setValue key _ s.itemsBeingProcessed) = _
      rw [alookup_setValue_self, hbp]
      rfl
    · intro k' hk'
      exact alookup_setValue_ne hk' _ _
  · intro hmem hbp
    unfold Forget
    rw [if_neg hmem, hbp]

/-- Witness for C8: forgetting the pending key "a" empties the pending list of
"a" without touching the limiter. -/
theorem C8_forget_cases_witness : countKey "a" (Forget pendingA "a").items = 0 :=
  ((C8_forget_cases pendingA "a" (WF_of_dec (by decide))).1 (by decide)).2.2.2.1

/-- C9: the modelled operations panic exactly in the ProgrammerError cases:
`insert` iff it is creating a new item (key neither in flight nor pending)
with `ratelimit = true` and `delay > 0`; `Len` iff the pending list length
disagrees with the index size; `Run` iff `workers ≤ 0` or the queue is already
running.  No other input to these operations panics. -/
theorem C9_panic_characterization {ρ : Type} (lim : RateLimiter ρ) (cn : Time)
    (s : QueueState ρ) (key : Key) (rlmt : Bool) (delay : Duration)
    (workers : Int) :
    (isPanic (Queue.insert lim cn s key rlmt delay) = true ↔
      (alookup key s.itemsBeingProcessed = none ∧ key ∉ s.itemsInQueue ∧
        rlmt = true ∧ 0 < delay)) ∧
    (isPanic (Len s) = true ↔ s.items.length ≠ s.itemsInQueue.length) ∧
    (isPanic (RunStart workers s) = true ↔ (workers ≤ 0 ∨ s.running = true)) := by
  refine ⟨?_, ?_, ?_⟩
  · cases hbp : alookup key s.itemsBeingProcessed with
    | some item =>
      rw [insert_inflight_eq lim cn delay s key rlmt hbp]
      simp [isPanic]
    | none =>
      by_cases hmem : key ∈ s.itemsInQueue
      · cases hsk : splitAtKey key s.items with
        | some r =>
          obtain ⟨pre, qi, post⟩ := r
          rw [insert_pending_eq lim cn delay s key rlmt hbp hmem hsk]
          by_cases hlt : qi.plannedToStartWorkAt < cn + delay <;>
            simp [hlt, isPanic, hmem]
        | none =>
          have heq : Queue.insert lim cn s key rlmt delay =
              .ok (s, deadItem key, .adjustedPending) := by
            unfold Queue.insert
            rw [hbp]
            simp [hmem, hsk]
          rw [heq]
          simp [isPanic, hmem]
      · cases rlmt with
        | true =>
          by_cases hd : 0 < delay
          · rw [insert_fresh_rl_panic lim cn delay s key hbp hmem hd]
            simp [isPanic, hbp, hmem, hd]
          · rw [insert_fresh_rl_eq lim cn delay s key hbp hmem (not_lt.mp hd)]
            simp [isPanic, hd]
        | false =>
          rw [insert_fresh_norl_eq lim cn delay s key hbp hmem]
          simp [isPanic]
  · unfold Len
    by_cases hl : s.items.length = s.itemsInQueue.length <;> simp [hl, isPanic]
  · unfold RunStart
    by_cases hw : workers ≤ 0
    · simp [hw, isPanic]
    · by_cases hr : s.running = true <;> simp [hw, hr, isPanic]

theorem erasePendingItem_append_no_match {k : Key} {a : List QueueItem}
    (ha : ∀ x ∈ a, x.key ≠ k) (l : List QueueItem) :
    erasePendingItem k (a ++ l) = a ++ erasePendingItem k l := by
  induction a with
  | nil => simp
  | cons x xs ih =>
    have hx : x.key ≠ k := ha x (List.mem_cons_self x xs)
    rw [List.cons_append]
    show (if x.key = k then xs ++ l else x :: erasePendingItem k (xs ++ l)) =
      (x :: xs) ++ erasePendingItem k l
    rw [if_neg hx, ih (fun y hy => ha y (List.mem_cons_of_mem x hy)), List.cons_append]

/-- Scenario for C4: "a" then "b" pending, both planned for time 5. -/
def c4s2 : QueueState Unit :=
  okState (EnqueueWithoutRateLimitWithDelay lim0 0
    (okState (EnqueueWithoutRateLimitWithDelay lim0 0 emptyState "a" 5)) "b" 5)

/-- Scenario for C4: then re-enqueue "a" with the same delay 5 (computed
`when = 5` equals its current planned time). -/
def c4s3 : QueueState Unit :=
  okState (EnqueueWithoutRateLimitWithDelay lim0 0 c4s2 "a" 5)

/-- C4, counterexample: re-inserting pending key "a" with `when = now + delay
= 5` EQUAL to its current `plannedToStartWorkAt` (hence `when ≥ planned`)
moves it from the back to the front of the pending order — the claim says the
position is left unchanged whenever `when ≥ planned`, but the code only skips
the adjustment for strictly greater `when` (`when.After(planned)`,
src/pkg/utils/log/log.go:271). -/
theorem C4_equal_when_counterexample :
    c4s2.items.map (fun it => (it.key, it.plannedToStartWorkAt)) =
      [("b", 5), ("a", 5)] ∧
    c4s3.items.map (fun it => (it.key, it.plannedToStartWorkAt)) =
      [("a", 5), ("b", 5)] := by
  decide

/-- C4 (amended): for a pending key, re-inserting with `when = now + delay`
STRICTLY greater than the current planned time leaves the state and item
completely unchanged; with `when ≤ planned` the item's planned time becomes
`when`, the pending list stays sorted, the key still occurs exactly once, the
other items (and the index, in-flight map and limiter) are untouched — but at
`when = planned` the item may move before equal-time predecessors. -/
theorem C4_adjust_position {ρ : Type} (lim : RateLimiter ρ) (cn delay : Time)
    (s : QueueState ρ) (key : Key) (rlmt : Bool) (hwf : WF s)
    (hmem : key ∈ s.itemsInQueue) :
    ∃ pre qi post, splitAtKey key s.items = some (pre, qi, post) ∧ qi.key = key ∧
      (qi.plannedToStartWorkAt < cn + delay →
        Queue.insert lim cn s key rlmt delay = .ok (s, qi, .adjustedPending)) ∧
      (cn + delay ≤ qi.plannedToStartWorkAt →
        ∃ s', Queue.insert lim cn s key rlmt delay =
            .ok (s', adjustedItem (cn + delay) s.seqCounter qi, .adjustedPending) ∧
          (adjustedItem (cn + delay) s.seqCounter qi).plannedToStartWorkAt = cn + delay ∧
          s'.items.Pairwise itemLe ∧
          countKey key s'.items = 1 ∧
          erasePendingItem key s'.items = erasePendingItem key s.items ∧
          s'.itemsInQueue = s.itemsInQueue ∧
          s'.itemsBeingProcessed = s.itemsBeingProcessed ∧
          s'.rl = s.rl) := by
  have hbp : alookup key s.itemsBeingProcessed = none := hwf.disjoint key hmem
  have hcnt : countKey key s.items = 1 := by
    rw [hwf.count_index key, if_pos hmem]
  obtain ⟨pre, qi, post, hsk⟩ := splitAtKey_isSome (by rw [hcnt]; omega)
  obtain ⟨hitems, hqik, hpre⟩ := splitAtKey_spec hsk
  refine ⟨pre, qi, post, hsk, hqik, ?_, ?_⟩
  · intro hlt
    rw [insert_pending_eq lim cn delay s key rlmt hbp hmem hsk, if_pos hlt]
  · intro hle
    rw [insert_pending_eq lim cn delay s key rlmt hbp hmem hsk,
        if_neg (not_lt.mpr hle)]
    have hwf' : WF (adjustedState s (cn + delay) pre post qi) :=
      WF_adjustMove hwf hitems hle
    have hpost : ∀ x ∈ post, x.key ≠ key := by
      have : countKey key s.items =
          countKey key pre + ((if qi.key = key then 1 else 0) + countKey key post) := by
        rw [hitems, countKey_append]; simp [countKey]
      rw [hcnt, if_pos hqik] at this
      have hp0 : countKey key post = 0 := by omega
      exact countKey_eq_zero.mp hp0
    have hpre0 : countKey key pre = 0 := countKey_eq_zero.mpr hpre
    refine ⟨_, rfl, rfl, hwf'.sorted, ?_, ?_, rfl, rfl, rfl⟩
    · show countKey key (adjustedState s (cn + delay) pre post qi).items = 1
      rw [hwf'.count_index key]
      show (if key ∈ s.itemsInQueue then 1 else 0) = 1
      rw [if_pos hmem]
    · show erasePendingItem key ((splitForInsert (cn + delay) pre).1 ++
        adjustedItem (cn + delay) s.seqCounter qi ::
          ((splitForInsert (cn + delay) pre).2 ++ post)) = _
      have hA : ∀ x ∈ (splitForInsert (cn + delay) pre).1, x.key ≠ key :=
        fun x hx => hpre x (mem_splitForInsert_fst hx)
      rw [erasePendingItem_append_no_match hA]
      have hadj : (adjustedItem (cn + delay) s.seqCounter qi).key = key := hqik
      show (splitForInsert (cn + delay) pre).1 ++
        (if (adjustedItem (cn + delay) s.seqCounter qi).key = key
          then ((splitForInsert (cn + delay) pre).2 ++ post)
          else adjustedItem (cn + delay) s.seqCounter qi ::
            erasePendingItem key ((splitForInsert (cn + delay) pre).2 ++ post)) = _
      rw [if_pos hadj, hitems, erasePendingItem_append_no_match hpre]
      show (splitForInsert (cn + delay) pre).1 ++
          ((splitForInsert (cn + delay) pre).2 ++ post) =
        pre ++ (if qi.key = key then post else qi :: erasePendingItem key post)
      rw [if_pos hqik, ← List.append_assoc, splitForInsert_append]

/-- Witness for C4: re-enqueueing pending "a" (planned 5) with delay 9 from
clock 0 — `when = 9 > 5` — returns the state unchanged. -/
theorem C4_adjust_position_witness :
    ∃ qi, Queue.insert lim0 0 c4s2 "a" false 9 = .ok (c4s2, qi, .adjustedPending) := by
  obtain ⟨pre, qi, post, hsk, hqik, hgt, -⟩ :=
    C4_adjust_position lim0 0 9 c4s2 "a" false (WF_of_dec (by decide)) (by decide)
  refine ⟨qi, hgt ?_⟩
  have hq : splitAtKey "a" c4s2.items =
      some ([{ freshItem 0 "b" 1 with plannedToStartWorkAt := 5 }],
            { freshItem 0 "a" 0 with plannedToStartWorkAt := 5 }, []) := by
    decide
  rw [hq] at hsk
  simp only [Option.some_inj, Prod.mk.injEq] at hsk
  obtain ⟨-, h2, -⟩ := hsk
  rw [← h2]
  decide

theorem complete_retry_eq {ρ : Type} (lim : RateLimiter ρ) (cn wn : Time)
    (qi : QueueItem) (s : QueueState ρ) (hfg : qi.forget = false)
    (hreq : qi.requeues + 1 < MaxRetries) :
    completeQueueItem lim cn wn true qi s =
      (match Queue.insert lim cn
          { s with itemsBeingProcessed := deleteKey qi.key s.itemsBeingProcessed }
          qi.key true 0 with
       | .error e => .error e
       | .ok (s2, _, oc) =>
         .ok (updateLoc oc qi.key
               (fun it => { it with requeues := qi.requeues + 1,
                                    originallyAdded := qi.originallyAdded }) s2, false)) := by
  unfold completeQueueItem
  rw [if_neg (by simp [hfg]), if_pos ⟨rfl, hreq⟩]

theorem complete_redirty_eq {ρ : Type} (lim : RateLimiter ρ) (cn wn : Time)
    (err : Bool) (qi : QueueItem) (s : QueueState ρ) (hfg : qi.forget = false)
    (hnoretry : ¬(err = true ∧ qi.requeues + 1 < MaxRetries))
    (hrd : qi.redirtiedAt ≠ 0) :
    completeQueueItem lim cn wn err qi s =
      (match Queue.insert lim cn
          { s with itemsBeingProcessed := deleteKey qi.key s.itemsBeingProcessed, rl := lim.forgetFn s.rl qi.key }
          qi.key qi.redirtiedWithRatelimit (qi.redirtiedAt - wn) with
       | .error e => .error e
       | .ok (s3, _, oc) =>
         .ok (updateLoc oc qi.key (fun it => { it with addedViaRedirty := true }) s3,
              err)) := by
  unfold completeQueueItem
  rw [if_neg (by simp [hfg]), if_neg hnoretry, if_neg hrd]

/-- After a fresh insert of `val` into a list with no occurrence of key `k`,
the only pending item carrying `k` in the updated list is `f val`. -/
theorem unique_key_after_fresh_update (k : Key) (f : QueueItem → QueueItem)
    (val : QueueItem) (hval : val.key = k)
    {l : List QueueItem} (hl : ∀ x ∈ l, x.key ≠ k) {w : Time} :
    ∀ it ∈ updatePendingItems k f
        ((splitForInsert w l).1 ++ val :: (splitForInsert w l).2),
      it.key = k → it = f val := by
  intro it hit hk
  rw [updatePendingItems_eq_map] at hit
  obtain ⟨x, hx, rfl⟩ := List.mem_map.mp hit
  have hxkey : x.key = k := by
    unfold updateItemFn at hk
    by_cases hxk : x.key = k
    · exact hxk
    · rw [if_neg hxk] at hk
      exact absurd hk hxk
  have hxval : x = val := by
    rcases List.mem_append.mp hx with hA | hB
    · exact absurd hxkey (hl x (mem_splitForInsert_fst hA))
    · rcases List.mem_cons.mp hB with rfl | hB'
      · rfl
      · exact absurd hxkey (hl x (mem_splitForInsert_snd hB'))
  subst hxval
  unfold updateItemFn
  rw [if_pos hxkey]

/-- C5 iteration harness: pick up the (single) due item and complete it with a
failing handler, repeatedly; counts how many handler invocations occur. -/
def failIter : Nat → QueueState Unit → QueueState Unit × Nat
  | 0, s => (s, 0)
  | n + 1, s =>
    match pickupNext 0 s with
    | none => (s, 0)
    | some (s', it) =>
      match completeQueueItem lim0 0 0 true it s' with
      | .error _ => (s', 0)
      | .ok (s'', _) =>
        let r := failIter n s''
        (r.1, r.2 + 1)

/-- The queue state after `Enqueue lim0 0 emptyState "a"`. -/
def enqueuedA : QueueState Unit := okState (Enqueue lim0 0 emptyState "a")

/-- The field update applied to the re-inserted item on the retry path
(src/pkg/utils/log/log.go:476-477). -/
def retryFn (qi : QueueItem) : QueueItem → QueueItem :=
  fun it => { it with requeues := qi.requeues + 1, originallyAdded := qi.originallyAdded }

/-- The fresh rate-limited item created by `insert(key, true, 0)`. -/
def rlVal {ρ : Type} (lim : RateLimiter ρ) (cn : Time) (r : ρ) (key : Key)
    (c : Nat) : QueueItem :=
  { freshItem cn key c with plannedToStartWorkAt := cn + (lim.whenFn r key).1,
                            delayedViaRateLimit := some (lim.whenFn r key).1 }

/-- C5: completing with a handler error an in-flight item that is not
forgotten and has `requeues + 1 < MaxRetries` re-inserts the key rate-limited
with zero delay — the fresh pending item has `requeues` bumped,
`originallyAdded` preserved, planned time `now + rateLimiter.When(key)` — and
no error is propagated; moreover, iterating pickup + failing completion from a
single `Enqueue` invokes the handler exactly 20 times (`MaxRetries`) and never
again afterwards, leaving the queue empty. -/
theorem C5_retry_policy {ρ : Type} (lim : RateLimiter ρ) (cn wn : Time)
    (qi : QueueItem) (s : QueueState ρ) (hwf : WF s)
    (hqi : alookup qi.key s.itemsBeingProcessed = some qi)
    (hfg : qi.forget = false) (hreq : qi.requeues + 1 < MaxRetries) :
    (∃ s', completeQueueItem lim cn wn true qi s = .ok (s', false) ∧
      countKey qi.key s'.items = 1 ∧
      (∀ it ∈ s'.items, it.key = qi.key →
        it.requeues = qi.requeues + 1 ∧
        it.originallyAdded = qi.originallyAdded ∧
        it.plannedToStartWorkAt = cn + (lim.whenFn s.rl qi.key).1 ∧
        it.delayedViaRateLimit = some (lim.whenFn s.rl qi.key).1 ∧
        it.addedViaRedirty = false) ∧
      s'.rl = (lim.whenFn s.rl qi.key).2 ∧
      alookup qi.key s'.itemsBeingProcessed = none) ∧
    (failIter 20 enqueuedA).2 = 20 ∧
    (failIter 40 enqueuedA).2 = 20 ∧
    (failIter 40 enqueuedA).1.items = [] ∧
    (failIter 40 enqueuedA).1.itemsBeingProcessed = [] := by
  constructor
  · have hmem : qi.key ∉ s.itemsInQueue := by
      intro hm
      rw [hwf.disjoint qi.key hm] at hqi
      cases hqi
    have hcnt0 : countKey qi.key s.items = 0 := by
      rw [hwf.count_index qi.key, if_neg hmem]
    have hins := insert_fresh_rl_eq lim cn 0
      { s with itemsBeingProcessed := deleteKey qi.key s.itemsBeingProcessed }
      qi.key (alookup_deleteKey_self _ _) hmem (le_refl 0)
    rw [complete_retry_eq lim cn wn qi s hfg hreq, hins]
    refine ⟨_, rfl, ?_, ?_, ?_, ?_⟩
    · show countKey qi.key (updatePendingItems qi.key (retryFn qi)
        ((splitForInsert (cn + (lim.whenFn s.rl qi.key).1) s.items).1 ++
          rlVal lim cn s.rl qi.key s.seqCounter ::
          (splitForInsert (cn + (lim.whenFn s.rl qi.key).1) s.items).2)) = 1
      rw [countKey_updatePendingItems _ _ (retryFn qi) (fun it => rfl),
          countKey_middle, splitForInsert_append, hcnt0]
      show 0 + (if (rlVal lim cn s.rl qi.key s.seqCounter).key = qi.key
        then 1 else 0) = 1
      simp [rlVal, freshItem]
    · intro it hit hk
      have heq := unique_key_after_fresh_update qi.key (retryFn qi)
        (rlVal lim cn s.rl qi.key s.seqCounter) rfl
        (countKey_eq_zero.mp hcnt0) it hit hk
      rw [heq]
      exact ⟨rfl, rfl, rfl, rfl, rfl⟩
    · rfl
    · exact alookup_deleteKey_self _ _
  · refine ⟨by decide, by decide, by decide, by decide⟩

/-- Witness for C5: the retry property applied to a concrete in-flight item. -/
theorem C5_retry_policy_witness :
    ∃ s', completeQueueItem lim0 0 0 true (deadItem "a") inFlightA = .ok (s', false) ∧
      countKey (deadItem "a").key s'.items = 1 ∧
      (∀ it ∈ s'.items, it.key = (deadItem "a").key →
        it.requeues = (deadItem "a").requeues + 1 ∧
        it.originallyAdded = (deadItem "a").originallyAdded ∧
        it.plannedToStartWorkAt = 0 + (lim0.whenFn inFlightA.rl (deadItem "a").key).1 ∧
        it.delayedViaRateLimit = some (lim0.whenFn inFlightA.rl (deadItem "a").key).1 ∧
        it.addedViaRedirty = false) ∧
      s'.rl = (lim0.whenFn inFlightA.rl (deadItem "a").key).2 ∧
      alookup (deadItem "a").key s'.itemsBeingProcessed = none :=
  (C5_retry_policy lim0 0 0 (deadItem "a") inFlightA
    (WF_of_dec (by decide)) (by decide) (by decide) (by decide)).1

/-- The field update applied to the re-inserted item on the re-dirty path
(src/pkg/utils/log/log.go:488). -/
def redirtyFn : QueueItem → QueueItem :=
  fun it => { it with addedViaRedirty := true }

/-- C2, counterexample to the clamped delay: completing a non-forgotten item
whose `redirtiedAt = 3` already passed (wall clock 10) re-inserts it with the
UNCLAMPED delay `time.Until(redirtiedAt) = -7`, so the fresh item is planned
for `clockNow + (-7) = 3`, not `clockNow + max(0, redirtiedAt - now) = 10` as
the claim states. -/
theorem C2_delay_counterexample :
    (completeQueueItem lim0 10 10 false { deadItem "a" with redirtiedAt := 3 }
        emptyState).map
      (fun p => p.1.items.map (fun it => it.plannedToStartWorkAt)) = .ok [3] ∧
    (3 : Int) ≠ 10 + max 0 (3 - 10) := by
  decide

/-- C2 (amended): when a worker completes an item with `forget` unset and
non-zero `redirtiedAt` (handler success, or retries exhausted), the completion
logic calls `rateLimiter.Forget(key)` exactly once and re-inserts the key with
`ratelimit = redirtiedWithRatelimit` and delay `redirtiedAt - now` taken from
the WALL clock and NOT clamped at zero (so it may be negative); the fresh item
is marked `addedViaRedirty`.  When `redirtiedWithRatelimit` is true and that
delay is positive, `insert` panics instead ("illegal combination"); otherwise
the rate-limited re-insert draws its delay from the limiter. -/
theorem C2_redirty_reinsert {ρ : Type} (lim : RateLimiter ρ) (cn wn : Time)
    (err : Bool) (qi : QueueItem) (s : QueueState ρ) (hwf : WF s)
    (hqi : alookup qi.key s.itemsBeingProcessed = some qi)
    (hfg : qi.forget = false)
    (hcase : err = false ∨ MaxRetries ≤ qi.requeues + 1)
    (hrd : qi.redirtiedAt ≠ 0) :
    (qi.redirtiedWithRatelimit = true ∧ 0 < qi.redirtiedAt - wn →
      isPanic (completeQueueItem lim cn wn err qi s) = true) ∧
    (¬(qi.redirtiedWithRatelimit = true ∧ 0 < qi.redirtiedAt - wn) →
      ∃ s', completeQueueItem lim cn wn err qi s = .ok (s', err) ∧
        countKey qi.key s'.items = 1 ∧
        (∀ it ∈ s'.items, it.key = qi.key →
          it.addedViaRedirty = true ∧
          it.requeues = 0 ∧
          it.plannedToStartWorkAt =
            (if qi.redirtiedWithRatelimit = true
             then cn + (lim.whenFn (lim.forgetFn s.rl qi.key) qi.key).1
             else cn + (qi.redirtiedAt - wn))) ∧
        s'.rl = (if qi.redirtiedWithRatelimit = true
                 then (lim.whenFn (lim.forgetFn s.rl qi.key) qi.key).2
                 else lim.forgetFn s.rl qi.key) ∧
        alookup qi.key s'.itemsBeingProcessed = none) := by
  have hmem : qi.key ∉ s.itemsInQueue := by
    intro hm
    rw [hwf.disjoint qi.key hm] at hqi
    cases hqi
  have hcnt0 : countKey qi.key s.items = 0 := by
    rw [hwf.count_index qi.key, if_neg hmem]
  have hnoretry : ¬(err = true ∧ qi.requeues + 1 < MaxRetries) := by
    rcases hcase with h | h
    · rintro ⟨he, -⟩
      rw [h] at he
      cases he
    · rintro ⟨-, hl⟩
      exact absurd hl (not_lt.mpr h)
  rw [complete_redirty_eq lim cn wn err qi s hfg hnoretry hrd]
  constructor
  · rintro ⟨hrl, hpos⟩
    rw [hrl, insert_fresh_rl_panic lim cn (qi.redirtiedAt - wn)
      { s with itemsBeingProcessed := deleteKey qi.key s.itemsBeingProcessed, rl := lim.forgetFn s.rl qi.key }
      qi.key (alookup_deleteKey_self _ _) hmem hpos]
    rfl
  · intro hno
    by_cases hrl : qi.redirtiedWithRatelimit = true
    · have hle : qi.redirtiedAt - wn ≤ 0 := by
        by_contra hc
        exact hno ⟨hrl, not_le.mp hc⟩
      rw [hrl, insert_fresh_rl_eq lim cn (qi.redirtiedAt - wn)
        { s with itemsBeingProcessed := deleteKey qi.key s.itemsBeingProcessed, rl := lim.forgetFn s.rl qi.key }
        qi.key (alookup_deleteKey_self _ _) hmem hle]
      refine ⟨_, rfl, ?_, ?_, ?_, ?_⟩
      · show countKey qi.key (updatePendingItems qi.key redirtyFn
          ((splitForInsert (cn + (lim.whenFn (lim.forgetFn s.rl qi.key) qi.key).1) s.items).1 ++
            rlVal lim cn (lim.forgetFn s.rl qi.key) qi.key s.seqCounter ::
            (splitForInsert (cn + (lim.whenFn (lim.forgetFn s.rl qi.key) qi.key).1) s.items).2)) = 1
        rw [countKey_updatePendingItems _ _ redirtyFn (fun it => rfl),
            countKey_middle, splitForInsert_append, hcnt0]
        show 0 + (if (rlVal lim cn (lim.forgetFn s.rl qi.key) qi.key s.seqCounter).key = qi.key
          then 1 else 0) = 1
        simp [rlVal, freshItem]
      · intro it hit hk
        have heq := unique_key_after_fresh_update qi.key redirtyFn
          (rlVal lim cn (lim.forgetFn s.rl qi.key) qi.key s.seqCounter) rfl
          (countKey_eq_zero.mp hcnt0) it hit hk
        rw [heq]
        refine ⟨rfl, rfl, ?_⟩
        rw [if_pos rfl]
        rfl
      · rw [if_pos rfl]
        rfl
      · exact alookup_deleteKey_self _ _
    · have hrlf : qi.redirtiedWithRatelimit = false := by
        cases hq : qi.redirtiedWithRatelimit
        · rfl
        · exact absurd hq hrl
      rw [hrlf, insert_fresh_norl_eq lim cn (qi.redirtiedAt - wn)
        { s with itemsBeingProcessed := deleteKey qi.key s.itemsBeingProcessed, rl := lim.forgetFn s.rl qi.key }
        qi.key (alookup_deleteKey_self _ _) hmem]
      refine ⟨_, rfl, ?_, ?_, ?_, ?_⟩
      · show countKey qi.key (updatePendingItems qi.key redirtyFn
          ((splitForInsert (cn + (qi.redirtiedAt - wn)) s.items).1 ++
            { freshItem cn qi.key s.seqCounter with plannedToStartWorkAt := cn + (qi.redirtiedAt - wn) } ::
            (splitForInsert (cn + (qi.redirtiedAt - wn)) s.items).2)) = 1
        rw [countKey_updatePendingItems _ _ redirtyFn (fun it => rfl),
            countKey_middle, splitForInsert_append, hcnt0]
        show 0 + (if ({ freshItem cn qi.key s.seqCounter with plannedToStartWorkAt := cn + (qi.redirtiedAt - wn) } : QueueItem).key = qi.key
          then 1 else 0) = 1
        simp [freshItem]
      · intro it hit hk
        have heq := unique_key_after_fresh_update qi.key redirtyFn
          ({ freshItem cn qi.key s.seqCounter with plannedToStartWorkAt := cn + (qi.redirtiedAt - wn) }) rfl
          (countKey_eq_zero.mp hcnt0) it hit hk
        rw [heq]
        refine ⟨rfl, rfl, ?_⟩
        rw [if_neg (by decide : ¬((false : Bool) = true))]
        rfl
      · rw [if_neg (by decide : ¬((false : Bool) = true))]
        rfl
      · exact alookup_deleteKey_self _ _

/-- A queue state with "a" in flight whose item has been re-dirtied for time 3. -/
def inFlightRedirty : QueueState Unit :=
  { rl := (), running := true, items := [], itemsInQueue := [],
    itemsBeingProcessed := [("a", { deadItem "a" with redirtiedAt := 3 })],
    seqCounter := 1 }

/-- Witness for C2: successful completion of the re-dirtied "a" (no rate
limit recorded, so the unclamped delay is used directly). -/
theorem C2_redirty_reinsert_witness :
    ∃ s', completeQueueItem lim0 0 0 false { deadItem "a" with redirtiedAt := 3 }
        inFlightRedirty = .ok (s', false) ∧
      countKey ({ deadItem "a" with redirtiedAt := 3 } : QueueItem).key s'.items = 1 ∧
      (∀ it ∈ s'.items, it.key = ({ deadItem "a" with redirtiedAt := 3 } : QueueItem).key →
        it.addedViaRedirty = true ∧
        it.requeues = 0 ∧
        it.plannedToStartWorkAt =
          (if ({ deadItem "a" with redirtiedAt := 3 } : QueueItem).redirtiedWithRatelimit = true
           then 0 + (lim0.whenFn (lim0.forgetFn inFlightRedirty.rl "a") "a").1
           else 0 + (({ deadItem "a" with redirtiedAt := 3 } : QueueItem).redirtiedAt - 0))) ∧
      s'.rl = (if ({ deadItem "a" with redirtiedAt := 3 } : QueueItem).redirtiedWithRatelimit = true
               then (lim0.whenFn (lim0.forgetFn inFlightRedirty.rl "a") "a").2
               else lim0.forgetFn inFlightRedirty.rl "a") ∧
      alookup ({ deadItem "a" with redirtiedAt := 3 } : QueueItem).key
        s'.itemsBeingProcessed = none :=
  (C2_redirty_reinsert lim0 0 0 false { deadItem "a" with redirtiedAt := 3 }
    inFlightRedirty (WF_of_dec (by decide)) (by decide) (by decide)
    (by decide) (by decide)).2 (by decide)

/-- A queue state with a single pending item "w" planned for time 5. -/
def pendingWall : QueueState Unit :=
  okState (EnqueueWithoutRateLimitWithDelay lim0 0 emptyState "w" 5)

/-- C3: the due-time test and the re-dirty re-insert delay are NOT functions
of the injected clock alone.  `getNextItem` computes `timeUntilProcessing`
with `time.Until` (src/pkg/utils/log/log.go:378) — the wall clock; the model's
`pickupNext` accordingly takes only the wall time, and two runs sharing the
injected clock but differing in wall time behave differently: with the item
planned for 5, wall time 10 dispatches it while wall time 0 does not.
Likewise the completion re-insert uses `time.Until(qi.redirtiedAt)`
(log.go:487): with the injected clock fixed at 7, wall time 0 yields a
re-inserted item planned for 12, wall time 10 yields 2.  The struct comment
"clock is used for testing" (log.go:89) and the spec's "must not read wall
time directly" make the wall-clock reads a slip in the code. -/
theorem C3_wallclock_dependence :
    (pickupNext 10 pendingWall).isSome = true ∧
    pickupNext 0 pendingWall = none ∧
    (completeQueueItem lim0 7 0 false { deadItem "w" with redirtiedAt := 5 }
        emptyState).map
      (fun p => p.1.items.map (fun it => it.plannedToStartWorkAt)) = .ok [12] ∧
    (completeQueueItem lim0 7 10 false { deadItem "w" with redirtiedAt := 5 }
        emptyState).map
      (fun p => p.1.items.map (fun it => it.plannedToStartWorkAt)) = .ok [2] := by
  decide

/-! ## Pod resource requests (src/unnamed/part_000, package utils) -/

abbrev ResourceName := String

/-- `resource.Quantity` modelled as an integer (its arithmetic here is `Add`,
`Cmp`, `IsZero` and `DeepCopy`, all faithfully represented on `Int`). -/
abbrev Quantity := Int

/-- `corev1.ResourceList`, a map from resource name to quantity; Go map
iteration order is fixed to list order (the result is order-independent as a
map, which is what the theorems below state via `alookup`). -/
abbrev ResourceList := List (ResourceName × Quantity)

/-- The `Resources.Requests` / `Resources.Limits` of a `corev1.Container`. -/
structure ContainerSpec where
  requests : ResourceList
  limits : ResourceList
deriving DecidableEq, Repr

/-- The parts of `corev1.Pod` read by `PodRequestsAndLimits`:
`Spec.Containers`, `Spec.InitContainers` and `Spec.Overhead` (nil-able). -/
structure Pod where
  containers : List ContainerSpec
  initContainers : List ContainerSpec
  overhead : Option ResourceList
deriving DecidableEq, Repr

/-- `addResourceList` (src/unnamed/part_000:52-61): adds the resources in
`newList` into `list`. -/
def addResourceList (list newList : ResourceList) : ResourceList :=
  newList.foldl (fun acc p =>
    match alookup p.1 acc with
    | some v => setValue p.1 (v + p.2) acc
    | none => acc ++ [p]) list

/-- `maxResourceList` (src/unnamed/part_000:65-76): sets `list` to the greater
of `list`/`new` for every resource. -/
def maxResourceList (list new : ResourceList) : ResourceList :=
  new.foldl (fun acc p =>
    match alookup p.1 acc with
    | none => acc ++ [p]
    | some v => if v < p.2 then setValue p.1 p.2 acc else acc) list

/-- `PodRequestsAndLimits` (src/unnamed/part_000:23-49).  The PodOverhead
feature gate (`utilfeature.DefaultFeatureGate.Enabled("PodOverhead")`, global
runtime configuration) is the `podOverheadEnabled` parameter. -/
def PodRequestsAndLimits (podOverheadEnabled : Bool) (pod : Pod) :
    ResourceList × ResourceList :=
  let rl := pod.containers.foldl
    (fun (acc : ResourceList × ResourceList) c =>
      (addResourceList acc.1 c.requests, addResourceList acc.2 c.limits)) ([], [])
  let rl := pod.initContainers.foldl
    (fun (acc : ResourceList × ResourceList) c =>
      (maxResourceList acc.1 c.requests, maxResourceList acc.2 c.limits)) rl
  match pod.overhead with
  | some ov =>
    if podOverheadEnabled then
      (addResourceList rl.1 ov,
       ov.foldl (fun acc p =>
         match alookup p.1 acc with
         | some v => if v ≠ 0 then setValue p.1 (v + p.2) acc else acc
         | none => acc) rl.2)
    else rl
  | none => rl

/-- Modelled from the spec: `common.Resource` (package pkg/common is not under
src/; the spec describes the surrounding capacity arithmetic only as thin glue
over the cluster client).  Modelled as a record wrapping the converted
resource list. -/
structure Resource where
  entries : ResourceList
deriving DecidableEq, Repr

/-- Modelled from the spec: `common.ConvertResource` (pkg/common, not under
src/) converts a Kubernetes ResourceList into a `common.Resource`; modelled as
the total wrapping conversion (in particular it never returns nil). -/
def ConvertResource (rl : ResourceList) : Resource := ⟨rl⟩

/-- `GetRequestFromPod` (src/unnamed/part_000:10-17); the nil-able pod pointer
is an `Option Pod`. -/
def GetRequestFromPod (podOverheadEnabled : Bool) (pod : Option Pod) :
    Option Resource :=
  match pod with
  | none => none
  | some p => some (ConvertResource (PodRequestsAndLimits podOverheadEnabled p).1)

/-- Pointwise addition of optional quantities (absent = not requested). -/
def optAdd : Option Quantity → Option Quantity → Option Quantity
  | none, b => b
  | some a, none => some a
  | some a, some b => some (a + b)

/-- Pointwise maximum of optional quantities, with the Go tie-break
(`Cmp > 0`): keep the left value unless the right is strictly greater. -/
def optMax : Option Quantity → Option Quantity → Option Quantity
  | none, b => b
  | some a, none => some a
  | some a, some b => some (if a < b then b else a)

/-- The per-resource request value described by the claim (container sums with
init-container maxima folded in), extended with the pod overhead term the
source also adds when the gate is enabled. -/
def specRequest (gate : Bool) (pod : Pod) (n : ResourceName) : Option Quantity :=
  let c := pod.containers.foldl (fun acc cs => optAdd acc (alookup n cs.requests)) none
  let ci := pod.initContainers.foldl (fun acc cs => optMax acc (alookup n cs.requests)) c
  match pod.overhead, gate with
  | some ov, true => optAdd ci (alookup n ov)
  | _, _ => ci

/-- Unique names in an optional overhead list. -/
def overheadNodup : Option ResourceList → Prop
  | none => True
  | some ov => (ov.map Prod.fst).Nodup

instance overheadNodup.decidable : (o : Option ResourceList) → Decidable (overheadNodup o)
  | none => .isTrue trivial
  | some ov => inferInstanceAs (Decidable ((ov.map Prod.fst).Nodup))

/-- Resource lists with unique names, as Go maps guarantee. -/
def PodWF (pod : Pod) : Prop :=
  (∀ c ∈ pod.containers, (c.requests.map Prod.fst).Nodup) ∧
  (∀ c ∈ pod.initContainers, (c.requests.map Prod.fst).Nodup) ∧
  overheadNodup pod.overhead

instance PodWF.decidable (pod : Pod) : Decidable (PodWF pod) := by
  unfold PodWF
  exact instDecidableAnd

theorem optAdd_none_right (a : Option Quantity) : optAdd a none = a := by
  cases a <;> rfl

theorem optMax_none_right (a : Option Quantity) : optMax a none = a := by
  cases a <;> rfl

theorem alookup_append_single_ne {α : Type} {m n : String} (h : m ≠ n) (q : α)
    (l : List (String × α)) : alookup n (l ++ [(m, q)]) = alookup n l := by
  induction l with
  | nil => simp [alookup, h]
  | cons p rest ih =>
    by_cases hp : p.1 = n <;> simp [alookup, hp, ih]

theorem alookup_append_self {α : Type} {n : String} {l : List (String × α)}
    (h : alookup n l = none) (q : α) : alookup n (l ++ [(n, q)]) = some q := by
  induction l with
  | nil => simp [alookup]
  | cons p rest ih =>
    have hp : p.1 ≠ n := by
      intro hh
      rw [alookup, if_pos hh] at h
      cases h
    rw [alookup, if_neg hp] at h
    simp [alookup, hp, ih h]

theorem alookup_addResourceList {l new : ResourceList}
    (hnd : (new.map Prod.fst).Nodup) (n : ResourceName) :
    alookup n (addResourceList l new) = optAdd (alookup n l) (alookup n new) := by
  induction new generalizing l with
  | nil => simp [addResourceList, alookup, optAdd_none_right]
  | cons p rest ih =>
    rw [List.map_cons, List.nodup_cons] at hnd
    obtain ⟨hp1, hrest⟩ := hnd
    show alookup n (addResourceList
      (match alookup p.1 l with
       | some v => setValue p.1 (v + p.2) l
       | none => l ++ [p]) rest) = _
    rw [ih hrest]
    by_cases hn : p.1 = n
    · subst hn
      have hrnone : alookup p.1 rest = none := alookup_eq_none_iff.mpr hp1
      rw [hrnone, optAdd_none_right]
      cases halo : alookup p.1 l with
      | some v =>
        show alookup p.1 (setValue p.1 (v + p.2) l) = _
        rw [alookup_setValue_self, halo]
        simp [alookup, optAdd]
      | none =>
        show alookup p.1 (l ++ [(p.1, p.2)]) = _
        rw [alookup_append_self halo p.2]
        simp [alookup, optAdd]
    · have hn' : n ≠ p.1 := fun hh => hn hh.symm
      have hstep : alookup n
          (match alookup p.1 l with
           | some v => setValue p.1 (v + p.2) l
           | none => l ++ [p]) = alookup n l := by
        cases halo : alookup p.1 l with
        | some v => exact alookup_setValue_ne hn' (v + p.2) l
        | none => exact alookup_append_single_ne hn p.2 l
      rw [hstep]
      have : alookup n (p :: rest) = alookup n rest := by
        rw [alookup, if_neg hn]
      rw [this]

theorem alookup_maxResourceList {l new : ResourceList}
    (hnd : (new.map Prod.fst).Nodup) (n : ResourceName) :
    alookup n (maxResourceList l new) = optMax (alookup n l) (alookup n new) := by
  induction new generalizing l with
  | nil => simp [maxResourceList, alookup, optMax_none_right]
  | cons p rest ih =>
    rw [List.map_cons, List.nodup_cons] at hnd
    obtain ⟨hp1, hrest⟩ := hnd
    show alookup n (maxResourceList
      (match alookup p.1 l with
       | none => l ++ [p]
       | some v => if v < p.2 then setValue p.1 p.2 l else l) rest) = _
    rw [ih hrest]
    by_cases hn : p.1 = n
    · subst hn
      have hrnone : alookup p.1 rest = none := alookup_eq_none_iff.mpr hp1
      rw [hrnone, optMax_none_right]
      cases halo : alookup p.1 l with
      | some v =>
        by_cases hv : v < p.2
        · show alookup p.1 (if v < p.2 then setValue p.1 p.2 l else l) = _
          rw [if_pos hv]
          rw [alookup_setValue_self, halo]
          simp [alookup, optMax, hv]
        · show alookup p.1 (if v < p.2 then setValue p.1 p.2 l else l) = _
          rw [if_neg hv, halo]
          simp [alookup, optMax, hv]
      | none =>
        show alookup p.1 (l ++ [(p.1, p.2)]) = _
        rw [alookup_append_self halo p.2]
        simp [alookup, optMax]
    · have hn' : n ≠ p.1 := fun hh => hn hh.symm
      have hstep : alookup n
          (match alookup p.1 l with
           | none => l ++ [p]
           | some v => if v < p.2 then setValue p.1 p.2 l else l) = alookup n l := by
        cases halo : alookup p.1 l with
        | some v =>
          by_cases hv : v < p.2
          · simp only [hv, if_pos]
            exact alookup_setValue_ne hn' p.2 l
          · simp only [hv, if_neg, not_false_iff]
        | none => exact alookup_append_single_ne hn p.2 l
      rw [hstep]
      have : alookup n (p :: rest) = alookup n rest := by
        rw [alookup, if_neg hn]
      rw [this]

theorem foldl_pair_add_fst (cs : List ContainerSpec) (i : ResourceList × ResourceList) :
    (cs.foldl (fun (acc : ResourceList × ResourceList) c =>
      (addResourceList acc.1 c.requests, addResourceList acc.2 c.limits)) i).1 =
    cs.foldl (fun acc c => addResourceList acc c.requests) i.1 := by
  induction cs generalizing i with
  | nil => rfl
  | cons c rest ih => simp only [List.foldl_cons]; exact ih _

theorem foldl_pair_max_fst (cs : List ContainerSpec) (i : ResourceList × ResourceList) :
    (cs.foldl (fun (acc : ResourceList × ResourceList) c =>
      (maxResourceList acc.1 c.requests, maxResourceList acc.2 c.limits)) i).1 =
    cs.foldl (fun acc c => maxResourceList acc c.requests) i.1 := by
  induction cs generalizing i with
  | nil => rfl
  | cons c rest ih => simp only [List.foldl_cons]; exact ih _

theorem alookup_foldl_add (cs : List ContainerSpec)
    (hnd : ∀ c ∈ cs, (c.requests.map Prod.fst).Nodup) (i : ResourceList)
    (n : ResourceName) :
    alookup n (cs.foldl (fun acc c => addResourceList acc c.requests) i) =
    cs.foldl (fun acc c => optAdd acc (alookup n c.requests)) (alookup n i) := by
  induction cs generalizing i with
  | nil => rfl
  | cons c rest ih =>
    simp only [List.foldl_cons]
    rw [ih (fun c' hc' => hnd c' (List.mem_cons_of_mem c hc')),
        alookup_addResourceList (hnd c (List.mem_cons_self c rest))]

theorem alookup_foldl_max (cs : List ContainerSpec)
    (hnd : ∀ c ∈ cs, (c.requests.map Prod.fst).Nodup) (i : ResourceList)
    (n : ResourceName) :
    alookup n (cs.foldl (fun acc c => maxResourceList acc c.requests) i) =
    cs.foldl (fun acc c => optMax acc (alookup n c.requests)) (alookup n i) := by
  induction cs generalizing i with
  | nil => rfl
  | cons c rest ih =>
    simp only [List.foldl_cons]
    rw [ih (fun c' hc' => hnd c' (List.mem_cons_of_mem c hc')),
        alookup_maxResourceList (hnd c (List.mem_cons_self c rest))]

/-- The pod with one container requesting cpu 1 and a pod Overhead of cpu 1. -/
def podOv : Pod := ⟨[⟨[("cpu", 1)], []⟩], [], some [("cpu", 1)]⟩

/-- C10, counterexample: with the PodOverhead gate enabled, a pod with one
container requesting cpu=1 and `Spec.Overhead` cpu=1 yields a converted
request of cpu=2, whereas the claim's formula — the sum of container requests
with init-container maxima folded in (= `specRequest` with the gate off) —
gives cpu=1. -/
theorem C10_overhead_counterexample :
    (GetRequestFromPod true (some podOv)).map (fun r => alookup "cpu" r.entries) =
      some (some 2) ∧
    specRequest false podOv "cpu" = some 1 ∧
    (2 : Int) ≠ 1 := by
  decide

/-- C10 (amended): `GetRequestFromPod` returns `none` for a nil pod; for every
non-nil pod (with Go-map resource lists) it returns, never nil, the converted
pointwise request map: the sum over containers, with init-container requests
folded in as per-resource maxima, PLUS the pod overhead on each resource when
`Spec.Overhead` is set and the PodOverhead feature gate is enabled. -/
theorem C10_requests (gate : Bool) (pod : Pod) (hwf : PodWF pod) :
    GetRequestFromPod gate none = none ∧
    ∃ r, GetRequestFromPod gate (some pod) = some r ∧
      ∀ n, alookup n r.entries = specRequest gate pod n := by
  obtain ⟨hc, hi, hov⟩ := hwf
  refine ⟨rfl, _, rfl, ?_⟩
  intro n
  show alookup n (PodRequestsAndLimits gate pod).1 = specRequest gate pod n
  unfold PodRequestsAndLimits specRequest
  cases hovq : pod.overhead with
  | none =>
    simp only
    rw [foldl_pair_max_fst, foldl_pair_add_fst]
    rw [alookup_foldl_max pod.initContainers hi, alookup_foldl_add pod.containers hc]
    rfl
  | some ov =>
    have hovn : (ov.map Prod.fst).Nodup := by
      rw [hovq] at hov
      exact hov
    cases gate with
    | false =>
      simp only [if_neg (by decide : ¬((false : Bool) = true))]
      rw [foldl_pair_max_fst, foldl_pair_add_fst]
      rw [alookup_foldl_max pod.initContainers hi, alookup_foldl_add pod.containers hc]
      rfl
    | true =>
      simp only [eq_self_iff_true, if_true]
      rw [alookup_addResourceList hovn]
      rw [foldl_pair_max_fst, foldl_pair_add_fst]
      rw [alookup_foldl_max pod.initContainers hi, alookup_foldl_add pod.containers hc]
      rfl

/-- Witness for C10: the characterization applied to the concrete overhead
pod with the gate enabled. -/
theorem C10_requests_witness :
    GetRequestFromPod true none = none ∧
    ∃ r, GetRequestFromPod true (some podOv) = some r ∧
      ∀ n, alookup n r.entries = specRequest true podOv n :=
  C10_requests true podOv (by decide)
